import Mathlib

/-!
Verification of the CList doubly-linked list library (clist.h).

The C structure `clist_t` holds: chain endpoints `head`/`tail`, the finger
cache `rul` (cached node pointer) / `ruly` (cached logical index) with the
validity bit `flags & 2U`, the free pool `pkb` (stack head) / `zskb` (pool
count), the element size `type_size`, the live count `size`, and the
ownership bit `flags & 1U` (CLIST_PAYLOAD_FREE).

Embedding choices, all recoverable from the source:
* The live chain is a `List` of nodes in `next`-order; `head` is the first
  element, `tail` the last.  A node is a stable identity (`id`, standing for
  the node's address) together with its inline payload value.  Pointer
  dereference of `next`/`prev` becomes position arithmetic on the list, and
  a node pointer held across mutations (the cache pointer `rul`) is resolved
  to its current position by searching for its `id`.
* `size` and `zskb` are maintained by the C code in lockstep with the chain
  and the pool (every update site changes both together), so they are
  represented by `chain.length` and `pool.length`.
* Allocation (`malloc`) is modeled as always succeeding and returning a
  fresh identity; the instrumentation counter `allocs` counts how many times
  a fresh node was allocated, so "no new allocation" is `allocs` unchanged.
  `free` of an owned payload (CLIST_PAYLOAD_FREE) has no observable effect
  on the list state and is not modeled.
* All indices are C `size_t` values; where the C performs size_t arithmetic
  that can wrap (`idx + count` in the bounds checks, `size - 1U` in
  `clist_pop_back`) the model reduces modulo `w64 = 2 ^ 64`.
* A NULL-pointer dereference (a genuine crash in the C) is modeled by the
  operation returning `none`; operations that cannot crash once their guard
  passed stay total.
* The C functions first check `list != NULL`.  The core definitions below
  (named after the C functions) model the body after that check, on a real
  list; the `cw_*` definitions are the NULL-dispatch layer of each public
  function, taking `Option (CList A)` where `none` is a NULL `clist_t *`.
-/

/-- 2^64, the modulus of `size_t` arithmetic (LP64). -/
def w64 : Nat := 2 ^ 64

/-- sizeof(void*): CLIST_PAYLOAD_FREE requires `type_size == sizeof(void*)`. -/
def ptrSize : Nat := 8

/-- One `vnut_node_t` allocation: its identity (address) and the inline
payload value that follows the link pair in memory. -/
structure CNode (A : Type) where
  id : Nat
  val : A
deriving DecidableEq, Repr

/-- The `clist_t` state.  `chain` is the live chain head-to-tail, `rul`/
`ruly`/`cval` are the finger cache fields (`cval` is `flags & 2U`), `pool`
is the free pool with `pkb` at the head, `dyn` is `flags & 1U`, and
`allocs` instruments the number of fresh allocations performed so far. -/
structure CList (A : Type) where
  chain : List (CNode A)
  rul : Option Nat
  ruly : Nat
  pool : List (CNode A)
  type_size : Nat
  dyn : Bool
  cval : Bool
  allocs : Nat
deriving DecidableEq, Repr

namespace CList

/-- `list->size`: the C field is kept equal to the chain length at every
observation point, so it is represented by the chain length. -/
def size {A : Type} (l : CList A) : Nat := l.chain.length

end CList

/-- The identities (addresses) of all nodes owned by the list: live chain
followed by free pool. -/
def vnut_ids {A : Type} (l : CList A) : List Nat :=
  l.chain.map CNode.id ++ l.pool.map CNode.id

/-- Well-formedness of a reachable `clist_t`: distinct node addresses, and
the finger-cache invariant - when the validity bit is set, `rul` is the
address of the node currently at logical index `ruly` in the chain. -/
def ClistWF {A : Type} (l : CList A) : Prop :=
  (vnut_ids l).Nodup ∧
    (l.cval = false ∨
      ((l.chain[l.ruly]?).map CNode.id = l.rul ∧ l.rul ≠ none))

instance {A : Type} (l : CList A) : Decidable (ClistWF l) := by
  unfold ClistWF; infer_instance

/-- The state written by a successful `clist_init`: chain, pool empty,
cache bit clear (`flags = dynamic & 1U`).  `rul` and `ruly` are left
uninitialized by the C code; they are unobservable while `cval` is clear,
and the model fixes them to `none` and `0`. -/
def initList (A : Type) (ts : Nat) (dynamic : Bool) : CList A :=
  { chain := [], rul := none, ruly := 0, pool := [], type_size := ts,
    dyn := dynamic, cval := false, allocs := 0 }

/-- `clist_init(list, type_size, dynamic)` on a non-NULL list: validates the
configuration and either produces the empty list state (EXIT_SUCCESS) or
refuses (`none` = EXIT_FAILURE, list untouched). -/
def clist_init (A : Type) (ts : Nat) (dynamic : Nat) : Option (CList A) :=
  if 0 < ts ∧ (dynamic = 0 ∨ dynamic = 1) ∧ (dynamic = 0 ∨ ts = ptrSize)
  then some (initList A ts (dynamic == 1))
  else none

/-- `clist_new(type_size, dynamic)`: allocates (modeled as succeeding) and
runs `clist_init`; on init failure the allocation is freed and NULL
(`none`) is returned. -/
def clist_new (A : Type) (ts : Nat) (dynamic : Nat) : Option (CList A) :=
  clist_init A ts dynamic

/-- `list->head`. -/
def clist_head {A : Type} (l : CList A) : Option (CNode A) := l.chain.head?

/-- `list->tail`. -/
def clist_tail {A : Type} (l : CList A) : Option (CNode A) := l.chain.getLast?

/-- `list->tail->prev`: NULL when the chain has fewer than two nodes. -/
def vnut_tail_prev {A : Type} (chain : List (CNode A)) : Option (CNode A) :=
  if 2 ≤ chain.length then chain[chain.length - 2]? else none

/-- Position of the cached node pointer `list->rul` within the chain (the
node the pointer designates, found by its address).  If the pointer is NULL
or dangling the position is `chain.length`, i.e. off the chain. -/
def vnut_pos {A : Type} (l : CList A) : Nat :=
  match l.rul with
  | some r => l.chain.findIdx (fun n => n.id == r)
  | none => l.chain.length

/-- Anchor selection of `clist_go` (the non-shortcut path): returns the
start position, the number of steps, and the direction (`true` = follow
`next`, `false` = follow `prev`), exactly as the C chooses among head,
tail and - when the cache bit is set - the cached node. -/
def vnut_choose {A : Type} (l : CList A) (idx : Nat) : Nat × Nat × Bool :=
  let len := l.size
  if l.cval then
    let cidx := l.ruly
    if cidx ≤ idx then
      if idx - cidx ≤ len - idx - 1 then (vnut_pos l, idx - cidx, true)
      else (len - 1, len - idx - 1, false)
    else
      if idx ≤ cidx - idx then (0, idx, true)
      else (vnut_pos l, cidx - idx, false)
  else
    if len / 2 < idx then (len - 1, len - idx - 1, false)
    else (0, idx, true)

/-- One pointer step from the node at a position: `next` moves to the
successor (NULL past the tail), `prev` to the predecessor (NULL before the
head). -/
def vnut_step (len : Nat) (fwd : Bool) (p : Nat) : Option Nat :=
  if fwd then (if p + 1 < len then some (p + 1) else none)
  else (if p = 0 then none else some (p - 1))

/-- The walk loop `while (steps-- > 0) node = node->next;` (resp. `prev`)
on positions; stepping from NULL is the C crash and stays `none`. -/
def vnut_walk_pos (len : Nat) (fwd : Bool) : Option Nat → Nat → Option Nat
  | p, 0 => p
  | none, _ + 1 => none
  | some p, s + 1 => vnut_walk_pos len fwd (vnut_step len fwd p) s

/-- Walk `steps` links from the node at position `start` and return the
reached node (NULL / crash = `none`). -/
def vnut_walk {A : Type} (chain : List (CNode A)) (start steps : Nat)
    (fwd : Bool) : Option (CNode A) :=
  (vnut_walk_pos chain.length fwd
      (if start < chain.length then some start else none) steps).bind
    (fun p => chain[p]?)

/-- The general branch of `clist_go`: choose the anchor, walk, and update
the finger cache to the reached node (`rul = node; ruly = idx;
flags |= 2U`). -/
def vnut_go_general {A : Type} (l : CList A) (idx : Nat) :
    Option (CNode A) × CList A :=
  let c := vnut_choose l idx
  let node := vnut_walk l.chain c.1 c.2.1 c.2.2
  (node, { l with rul := node.map CNode.id, ruly := idx, cval := true })

/-- `clist_go(list, idx)` on a non-NULL list: out-of-range indices give
NULL; indices `0`, `1`, `len-1`, `len-2` are O(1) shortcuts that do not
touch the cache; otherwise the resolver walks from the chosen anchor and
re-points the cache. -/
def clist_go {A : Type} (l : CList A) (idx : Nat) :
    Option (CNode A) × CList A :=
  if idx < l.size then
    if idx = 0 then (l.chain[0]?, l)
    else if idx = 1 then (l.chain[1]?, l)
    else if idx = l.size - 1 then (l.chain.getLast?, l)
    else if idx = l.size - 2 then (vnut_tail_prev l.chain, l)
    else vnut_go_general l idx
  else (none, l)

/-- `clist_get(list, idx)`: the payload pointer of the resolved node
(`node + 1`), i.e. the stored value, plus the cache side effect of
`clist_go`. -/
def clist_get {A : Type} (l : CList A) (idx : Nat) : Option A × CList A :=
  ((clist_go l idx).1.map CNode.val, (clist_go l idx).2)

/-- `clist_get_from_node(node)`: payload of a node, NULL-checked. -/
def clist_get_from_node {A : Type} (n : Option (CNode A)) : Option A :=
  n.map CNode.val

/-- `memcpy(node + 1, payload, type_size)`: overwrite the payload of the
node with the given address (the write goes through the node pointer,
hence is keyed by node identity). -/
def vnut_memcpy {A : Type} (chain : List (CNode A)) (tid : Nat) (v : A) :
    List (CNode A) :=
  chain.map (fun m => if m.id == tid then { m with val := v } else m)

/-- `clist_set(list, idx, payload)`: nothing at all when `payload` is NULL;
otherwise resolve and `memcpy` the new value into the resolved node. -/
def clist_set {A : Type} (l : CList A) (idx : Nat) (payload : Option A) :
    CList A :=
  match payload with
  | none => l
  | some v =>
    let g := clist_go l idx
    match g.1 with
    | none => g.2
    | some nd => { g.2 with chain := vnut_memcpy g.2.chain nd.id v }

/-- A fresh address for `malloc`: strictly larger than every address the
list owns, hence distinct from all of them. -/
def vnut_fresh {A : Type} (l : CList A) : Nat :=
  (vnut_ids l).foldr (fun a b => max a b) 0 + 1

/-- `vnut_cl_insert_node(list, idx, node)`: splice `node` into the chain
immediately before the node currently at `idx` (at the tail when
`idx == size`).  The two `clist_go` calls that locate the splice point are
kept for their cache side effects.  Cache rule: a middle insert
(`0 < idx < size`, old size) force-points the cache at the new node; a
front insert shifts the cached index up by one (the cached node moved one
position to the right); an append leaves the cache alone. -/
def vnut_cl_insert_node {A : Type} (l : CList A) (idx : Nat)
    (node : CNode A) : CList A :=
  let l1 := if idx < l.size then (clist_go l idx).2 else l
  let l2 := if idx = 0 then l1 else (clist_go l1 (idx - 1)).2
  let l3 := { l2 with chain := l2.chain.take idx ++ node :: l2.chain.drop idx }
  if idx < l.size ∧ 0 < idx then
    { l3 with rul := some node.id, ruly := idx, cval := true }
  else if idx = 0 then { l3 with ruly := l3.ruly + 1 }
  else l3

/-- `clist_insert(list, idx, payload)` on a non-NULL list: bounds check
`idx <= size`, then pop the free pool if non-empty (the popped node keeps
its stale payload bytes) or allocate fresh (payload bytes indeterminate,
modeled by `default`), copy the payload in when given, and splice. -/
def clist_insert {A : Type} [Inhabited A] (l : CList A) (idx : Nat)
    (payload : Option A) : Bool × CList A :=
  if idx ≤ l.size then
    let pr : CNode A × CList A :=
      match l.pool with
      | p :: rest => (p, { l with pool := rest })
      | [] => (⟨vnut_fresh l, default⟩, { l with allocs := l.allocs + 1 })
    let node : CNode A :=
      match payload with
      | some v => { pr.1 with val := v }
      | none => pr.1
    (true, vnut_cl_insert_node pr.2 idx node)
  else (false, l)

/-- `clist_erase(list, idx, count)` on a non-NULL list.  The bounds check
`idx + count <= size` is size_t arithmetic and wraps modulo 2^64.  Past the
check the C dereferences the resolver results unconditionally (`node->prev`
and `go(...)->next`): a NULL there is a crash, `none`.  The unlink loop
walks `count` times through `node->next`, pushing each removed node on the
free pool (so the pool receives them last-removed-first) - it runs off the
chain unless `idx + count <= length`.  Cache rule: when `idx > 0` and at
least two nodes remain at or after `idx`, the cache is force-pointed at the
node now occupying `idx`; otherwise a cached index at or past `idx` clears
the validity bit.

`vnut_erase_core` is the part of the body after the two resolver calls,
operating on the state they returned. -/
def vnut_erase_res {A : Type} (g : CList A) (idx count : Nat) : CList A :=
  let removed := (g.chain.drop idx).take count
  let l3 : CList A :=
    { g with
      chain := g.chain.take idx ++ g.chain.drop (idx + count),
      pool := removed.reverse ++ g.pool }
  if 0 < idx ∧ 1 < l3.size - idx then
    { l3 with rul := (g.chain[idx + count]?).map CNode.id,
              ruly := idx, cval := true }
  else if idx ≤ l3.ruly then { l3 with cval := false } else l3

def vnut_erase_core {A : Type} (g : CList A) (idx count : Nat) :
    Option (CList A) :=
  if idx + count ≤ g.chain.length then some (vnut_erase_res g idx count)
  else none

def clist_erase {A : Type} (l : CList A) (idx count : Nat) :
    Option (CList A) :=
  if (idx + count) % w64 ≤ l.size ∧ 0 < count then
    let g1 := clist_go l idx
    match g1.1 with
    | none => none
    | some _first =>
      let g2 := clist_go g1.2 ((idx + count - 1) % w64)
      match g2.1 with
      | none => none
      | some _last => vnut_erase_core g2.2 idx count
  else some l

/-- The growth loop of `clist_resize`: append `n` nodes (each insert at the
current size). -/
def vnut_resize_grow {A : Type} [Inhabited A] :
    CList A → Nat → Option A → Bool × CList A
  | l, 0, _ => (true, l)
  | l, n + 1, elem =>
    let r := clist_insert l l.size elem
    if r.1 then vnut_resize_grow r.2 n elem else (false, r.2)

/-- `clist_resize(list, new_size, elem)` on a non-NULL list: shrink by tail
erasure (plus an extra cache-invalidation check against `new_size`), grow
by repeated tail insertion. -/
def clist_resize {A : Type} [Inhabited A] (l : CList A) (new_size : Nat)
    (elem : Option A) : Option (Bool × CList A) :=
  if new_size = l.size then some (true, l)
  else if new_size < l.size then
    match clist_erase l new_size (l.size - new_size) with
    | none => none
    | some l1 =>
      some (true, if new_size ≤ l1.ruly then { l1 with cval := false } else l1)
  else some (vnut_resize_grow l (new_size - l.size) elem)

/-- `clist_push_front(list, payload)`. -/
def clist_push_front {A : Type} [Inhabited A] (l : CList A)
    (payload : Option A) : Bool × CList A :=
  clist_insert l 0 payload

/-- `clist_push_back(list, payload)`. -/
def clist_push_back {A : Type} [Inhabited A] (l : CList A)
    (payload : Option A) : Bool × CList A :=
  clist_insert l l.size payload

/-- `clist_pop_front(list)` = `clist_erase(list, 0, 1)`. -/
def clist_pop_front {A : Type} (l : CList A) : Option (CList A) :=
  clist_erase l 0 1

/-- `clist_pop_back(list)` = `clist_erase(list, list->size - 1U, 1)`; the
index is size_t arithmetic, so on an empty list it wraps to 2^64 - 1. -/
def clist_pop_back {A : Type} (l : CList A) : Option (CList A) :=
  clist_erase l ((l.size + (w64 - 1)) % w64) 1

/-- `clist_clear(list)` = `clist_erase(list, 0, list->size)`. -/
def clist_clear {A : Type} (l : CList A) : Option (CList A) :=
  clist_erase l 0 l.size

/-- `clist_shrink_to_fit(list)`: free every pooled node and reset the pool. -/
def clist_shrink_to_fit {A : Type} (l : CList A) : CList A :=
  { l with pool := [] }

/-- `clist_destroy(list)` = clear then shrink. -/
def clist_destroy {A : Type} (l : CList A) : Option (CList A) :=
  (clist_clear l).map clist_shrink_to_fit

/-- `clist_foreach(list, f)`: the sequence of payloads visited head to
tail (the trace of calls to the callback). -/
def clist_foreach {A : Type} (l : CList A) : List A :=
  l.chain.map CNode.val

/-- The loop of `clist_filter`: `fuel` iterations remain, the current index
is `fuel - 1`, and the current scan counter is `i = len - fuel`.  Each
iteration resolves the index, applies the predicate to the payload, and
erases the node when the predicate returns 0, recording the scan counter in
`del_idx`.  The result also carries the trace of payloads passed to the
predicate, in evaluation order. -/
def vnut_filter_loop {A : Type} (f : A → Int) (len : Nat) :
    Nat → CList A → Nat → Option (CList A × Nat × List A)
  | 0, l, delIdx => some (l, delIdx, [])
  | fuel + 1, l, delIdx =>
    let g := clist_go l fuel
    match g.1 with
    | none => none
    | some nd =>
      if f nd.val == 0 then
        match clist_erase g.2 fuel 1 with
        | none => none
        | some l2 =>
          (vnut_filter_loop f len fuel l2 (len - (fuel + 1))).map
            (fun r => (r.1, r.2.1, nd.val :: r.2.2))
      else
        (vnut_filter_loop f len fuel g.2 delIdx).map
          (fun r => (r.1, r.2.1, nd.val :: r.2.2))

/-- `clist_filter(list, f)` on a non-NULL list with a non-NULL predicate:
scan tail-to-head, erase each element on which the predicate returns 0,
then clear the cache bit when the cached index is at or past the last
removal's scan counter.  Returns the final state and the predicate trace. -/
def clist_filter {A : Type} (l : CList A) (f : A → Int) :
    Option (CList A × List A) :=
  (vnut_filter_loop f l.size l.size l l.size).map
    (fun r => (if r.2.1 ≤ r.1.ruly then { r.1 with cval := false } else r.1,
               r.2.2))

/-- `clist_splice(source, idx, count, dest, pos)` on two non-NULL, distinct
lists.  Guard: wrapped bounds checks on both lists, equal `type_size`,
equal ownership bit, `count > 0`.  The run `[idx, idx+count)` is unlinked
from the source (endpoint relinking only, no copy) and spliced into the
destination before position `pos`.  The two destination-side `clist_go`
calls locate the splice point; their results are NULL-checked by the C, so
only the source-side dereferences can crash.  Each list's cache bit is
cleared when its cached index is at or past its respective splice index
(after the inner resolver calls may have moved the cache).

`vnut_splice_src` is the source-side unlink (performed after the two
source-side resolver calls, on the state they returned), `vnut_splice_dst`
the destination-side splice-in of the moved run. -/
def vnut_splice_src {A : Type} (s2 : CList A) (idx count : Nat) : CList A :=
  let s3 : CList A :=
    { s2 with chain := s2.chain.take idx ++ s2.chain.drop (idx + count) }
  if idx ≤ s3.ruly then { s3 with cval := false } else s3

def vnut_splice_dst_prep {A : Type} (d : CList A) (pos : Nat) : CList A :=
  let d1 := if pos = 0 then d else (clist_go d (pos - 1)).2
  if pos < d1.size then (clist_go d1 pos).2 else d1

def vnut_splice_dst {A : Type} (d : CList A) (pos : Nat)
    (moved : List (CNode A)) : CList A :=
  let d2 := vnut_splice_dst_prep d pos
  let d3 : CList A :=
    { d2 with chain := d2.chain.take pos ++ moved ++ d2.chain.drop pos }
  if pos ≤ d3.ruly then { d3 with cval := false } else d3

def clist_splice {A : Type} (s : CList A) (idx count : Nat) (d : CList A)
    (pos : Nat) : Option (CList A × CList A) :=
  if (idx + count) % w64 ≤ s.size ∧ pos ≤ d.size ∧
      s.type_size = d.type_size ∧ s.dyn = d.dyn ∧ 0 < count then
    let g1 := clist_go s idx
    match g1.1 with
    | none => none
    | some _first =>
      let g2 := clist_go g1.2 ((idx + count - 1) % w64)
      match g2.1 with
      | none => none
      | some _last =>
        some (vnut_splice_src g2.2 idx count,
              vnut_splice_dst d pos ((g2.2.chain.drop idx).take count))
  else some (s, d)

/-- The finger cache forcibly disabled: validity bit cleared, everything
else untouched. -/
def cacheOff {A : Type} (l : CList A) : CList A := { l with cval := false }

/-- Fold a sequence of `clist_insert` calls over a list (used to state pool
reuse across a burst of insertions). -/
def insertFold {A : Type} [Inhabited A] (l : CList A)
    (ps : List (Nat × Option A)) : CList A :=
  ps.foldl (fun acc p => (clist_insert acc p.1 p.2).2) l

/-- A list built from the empty list by a sequence of `insert(idx, val)`
calls (out-of-range inserts fail and change nothing, as in the C). -/
def buildL (ops : List (Nat × Int)) : CList Int :=
  ops.foldl (fun l p => (clist_insert l p.1 (some p.2)).2)
    (initList Int 8 false)

/-- The same sequence of inserts performed on a plain Lean list: the
specification-level logical order. -/
def buildM (ops : List (Nat × Int)) : List Int :=
  ops.foldl
    (fun m p => if p.1 ≤ m.length then m.take p.1 ++ p.2 :: m.drop p.1 else m)
    []

/-! NULL-dispatch layer: each public C function first checks
`list != NULL` (and `clist_delete` checks both `pList` and `*pList`);
`none` models a NULL pointer.  A returned `none` at the outer `Option` of
the crash-able operations still models a crash. -/

/-- `clist_size(NULL) = 0`, else the size field. -/
def cw_size {A : Type} (l : Option (CList A)) : Nat :=
  match l with
  | none => 0
  | some l => l.size

/-- `clist_empty`: 1 on NULL or empty, else 0. -/
def cw_empty {A : Type} (l : Option (CList A)) : Int :=
  match l with
  | none => 1
  | some l => if 0 < l.size then 0 else 1

/-- `clist_head` with NULL check. -/
def cw_head {A : Type} (l : Option (CList A)) : Option (CNode A) :=
  match l with
  | none => none
  | some l => clist_head l

/-- `clist_tail` with NULL check. -/
def cw_tail {A : Type} (l : Option (CList A)) : Option (CNode A) :=
  match l with
  | none => none
  | some l => clist_tail l

/-- `clist_go` with NULL check. -/
def cw_go {A : Type} (l : Option (CList A)) (idx : Nat) :
    Option (CNode A) × Option (CList A) :=
  match l with
  | none => (none, none)
  | some l => ((clist_go l idx).1, some (clist_go l idx).2)

/-- `clist_get` with NULL check. -/
def cw_get {A : Type} (l : Option (CList A)) (idx : Nat) :
    Option A × Option (CList A) :=
  match l with
  | none => (none, none)
  | some l => ((clist_get l idx).1, some (clist_get l idx).2)

/-- `clist_set` with NULL check (a NULL list is never dereferenced; the
state is unchanged). -/
def cw_set {A : Type} (l : Option (CList A)) (idx : Nat) (p : Option A) :
    Option (CList A) :=
  match l with
  | none => none
  | some l => some (clist_set l idx p)

/-- `clist_insert` with NULL check: EXIT_FAILURE on NULL. -/
def cw_insert {A : Type} [Inhabited A] (l : Option (CList A)) (idx : Nat)
    (p : Option A) : Bool × Option (CList A) :=
  match l with
  | none => (false, none)
  | some l => ((clist_insert l idx p).1, some (clist_insert l idx p).2)

/-- `clist_push_front` with NULL check. -/
def cw_push_front {A : Type} [Inhabited A] (l : Option (CList A))
    (p : Option A) : Bool × Option (CList A) :=
  match l with
  | none => (false, none)
  | some l => ((clist_push_front l p).1, some (clist_push_front l p).2)

/-- `clist_push_back` with NULL check. -/
def cw_push_back {A : Type} [Inhabited A] (l : Option (CList A))
    (p : Option A) : Bool × Option (CList A) :=
  match l with
  | none => (false, none)
  | some l => ((clist_push_back l p).1, some (clist_push_back l p).2)

/-- `clist_erase` with NULL check (NULL: nothing happens). -/
def cw_erase {A : Type} (l : Option (CList A)) (idx count : Nat) :
    Option (Option (CList A)) :=
  match l with
  | none => some none
  | some l => (clist_erase l idx count).map some

/-- `clist_pop_front` with NULL check. -/
def cw_pop_front {A : Type} (l : Option (CList A)) :
    Option (Option (CList A)) :=
  match l with
  | none => some none
  | some l => (clist_pop_front l).map some

/-- `clist_pop_back` with NULL check. -/
def cw_pop_back {A : Type} (l : Option (CList A)) :
    Option (Option (CList A)) :=
  match l with
  | none => some none
  | some l => (clist_pop_back l).map some

/-- `clist_resize` with NULL check: EXIT_FAILURE on NULL. -/
def cw_resize {A : Type} [Inhabited A] (l : Option (CList A)) (n : Nat)
    (elem : Option A) : Option (Bool × Option (CList A)) :=
  match l with
  | none => some (false, none)
  | some l => (clist_resize l n elem).map (fun r => (r.1, some r.2))

/-- `clist_clear` with NULL check. -/
def cw_clear {A : Type} (l : Option (CList A)) : Option (Option (CList A)) :=
  match l with
  | none => some none
  | some l => (clist_clear l).map some

/-- `clist_shrink_to_fit` with NULL check. -/
def cw_shrink_to_fit {A : Type} (l : Option (CList A)) : Option (CList A) :=
  match l with
  | none => none
  | some l => some (clist_shrink_to_fit l)

/-- `clist_destroy` with NULL check. -/
def cw_destroy {A : Type} (l : Option (CList A)) :
    Option (Option (CList A)) :=
  match l with
  | none => some none
  | some l => (clist_destroy l).map some

/-- `clist_foreach` with NULL checks: the visit trace, empty on NULL. -/
def cw_foreach {A : Type} (l : Option (CList A)) : List A :=
  match l with
  | none => []
  | some l => clist_foreach l

/-- `clist_filter` with NULL checks. -/
def cw_filter {A : Type} (l : Option (CList A)) (f : A → Int) :
    Option (Option (CList A) × List A) :=
  match l with
  | none => some (none, [])
  | some l => (clist_filter l f).map (fun r => (some r.1, r.2))

/-- `clist_splice` with NULL checks on both lists (either NULL: nothing). -/
def cw_splice {A : Type} (s : Option (CList A)) (idx count : Nat)
    (d : Option (CList A)) (pos : Nat) :
    Option (Option (CList A) × Option (CList A)) :=
  match s, d with
  | some s, some d =>
    (clist_splice s idx count d pos).map (fun r => (some r.1, some r.2))
  | _, _ => some (s, d)

/-- `clist_delete(pList)`: the outer `Option` of the argument is the
`pList` pointer, the inner one the `*pList` list pointer.  NULL `pList` or
NULL `*pList`: nothing happens; otherwise destroy, free, and set `*pList`
to NULL. -/
def cw_delete {A : Type} (p : Option (Option (CList A))) :
    Option (Option (Option (CList A))) :=
  match p with
  | none => some none
  | some none => some (some none)
  | some (some l) => (clist_destroy l).map (fun _ => some none)

/-! Concrete lists used as witnesses: all well-formed, cache bit clear or
set as indicated. -/

/-- A five-element list 0,1,2,3,4 with the cache bit clear. -/
def cl5 : CList Int :=
  { chain := [⟨0, 0⟩, ⟨1, 1⟩, ⟨2, 2⟩, ⟨3, 3⟩, ⟨4, 4⟩], rul := none,
    ruly := 0, pool := [], type_size := 8, dyn := false, cval := false,
    allocs := 5 }

/-- A six-element list 0..5 with the cache bit clear. -/
def cl6 : CList Int :=
  { chain := [⟨0, 0⟩, ⟨1, 1⟩, ⟨2, 2⟩, ⟨3, 3⟩, ⟨4, 4⟩, ⟨5, 5⟩], rul := none,
    ruly := 0, pool := [], type_size := 8, dyn := false, cval := false,
    allocs := 6 }

/-- A seven-element list 0..6 with a valid finger cache at index 2. -/
def cl7 : CList Int :=
  { chain := [⟨0, 0⟩, ⟨1, 1⟩, ⟨2, 2⟩, ⟨3, 3⟩, ⟨4, 4⟩, ⟨5, 5⟩, ⟨6, 6⟩],
    rul := some 2, ruly := 2, pool := [], type_size := 8, dyn := false,
    cval := true, allocs := 7 }

/-- Splice source witness: the list 0..9. -/
def clA : CList Int :=
  { chain := [⟨0, 0⟩, ⟨1, 1⟩, ⟨2, 2⟩, ⟨3, 3⟩, ⟨4, 4⟩, ⟨5, 5⟩, ⟨6, 6⟩,
              ⟨7, 7⟩, ⟨8, 8⟩, ⟨9, 9⟩],
    rul := none, ruly := 0, pool := [], type_size := 8, dyn := false,
    cval := false, allocs := 10 }

/-- Splice destination witness: an empty list with disjoint (absent)
node addresses. -/
def clB : CList Int :=
  { chain := [], rul := none, ruly := 0, pool := [], type_size := 8,
    dyn := false, cval := false, allocs := 0 }

/-- The parity predicate of the specification's filter example: non-zero
(keep) exactly on even values. -/
def evenPred : Int → Int := fun v => if v % 2 = 0 then 1 else 0

/-! Lemmas about the walk loop. -/

/-- Forward walk: from a real position, `s` `next`-steps land on `p + s`
when that is still on the chain, and on NULL (or crash) otherwise. -/
theorem vnut_walk_pos_fwd (len : Nat) :
    ∀ (s p : Nat), p < len →
      vnut_walk_pos len true (some p) s =
        if p + s < len then some (p + s) else none := by
  intro s
  induction s with
  | zero => intro p hp; simp [vnut_walk_pos, hp]
  | succ n ih =>
    intro p hp
    rw [vnut_walk_pos]
    by_cases h1 : p + 1 < len
    · rw [vnut_step, if_pos rfl, if_pos h1, ih (p + 1) h1]
      have : p + 1 + n = p + (n + 1) := by omega
      rw [this]
    · rw [vnut_step, if_pos rfl, if_neg h1]
      have hnone : ∀ m, vnut_walk_pos len true none m = none := by
        intro m; cases m <;> rw [vnut_walk_pos]
      rw [hnone n, if_neg (by omega)]

/-- Backward walk: `s` `prev`-steps from position `p` land on `p - s` when
`s ≤ p`, and on NULL (or crash) otherwise. -/
theorem vnut_walk_pos_bwd (len : Nat) :
    ∀ (s p : Nat),
      vnut_walk_pos len false (some p) s =
        if s ≤ p then some (p - s) else none := by
  intro s
  induction s with
  | zero => intro p; simp [vnut_walk_pos]
  | succ n ih =>
    intro p
    rw [vnut_walk_pos]
    by_cases h0 : p = 0
    · subst h0
      rw [vnut_step, if_neg (by simp), if_pos rfl]
      have hnone : ∀ m, vnut_walk_pos len false none m = none := by
        intro m; cases m <;> rw [vnut_walk_pos]
      rw [hnone n, if_neg (by omega)]
    · rw [vnut_step, if_neg (by simp), if_neg h0, ih (p - 1)]
      by_cases h2 : n + 1 ≤ p
      · rw [if_pos (by omega), if_pos h2]
        have : p - 1 - n = p - (n + 1) := by omega
        rw [this]
      · rw [if_neg (by omega), if_neg h2]

/-- Forward walk, node level. -/
theorem vnut_walk_fwd {A : Type} (chain : List (CNode A)) (start steps : Nat)
    (h1 : start < chain.length) (h2 : start + steps < chain.length) :
    vnut_walk chain start steps true = chain[start + steps]? := by
  rw [vnut_walk, if_pos h1, vnut_walk_pos_fwd chain.length steps start h1,
    if_pos h2, Option.bind]

/-- Backward walk, node level. -/
theorem vnut_walk_bwd {A : Type} (chain : List (CNode A)) (start steps : Nat)
    (h1 : start < chain.length) (h2 : steps ≤ start) :
    vnut_walk chain start steps false = chain[start - steps]? := by
  rw [vnut_walk, if_pos h1, vnut_walk_pos_bwd chain.length steps start,
    if_pos h2, Option.bind]

/-- In a chain with distinct addresses, searching for the address of the
node stored at position `j` finds exactly position `j` (this is how a node
pointer held across mutations resolves to its current position). -/
theorem vnut_findIdx_eq {A : Type} :
    ∀ (chain : List (CNode A)) (j : Nat) (x : CNode A),
      (chain.map CNode.id).Nodup → chain[j]? = some x →
      chain.findIdx (fun n => n.id == x.id) = j := by
  intro chain
  induction chain with
  | nil => intro j x _ hx; simp at hx
  | cons c rest ih =>
    intro j x hnd hx
    rcases j with _ | j
    · simp at hx
      subst hx
      rw [List.findIdx_cons]
      simp
    · simp at hx
      have hmem : x ∈ rest := List.getElem?_mem hx
      have hxid : x.id ∈ rest.map CNode.id := List.mem_map_of_mem CNode.id hmem
      simp at hnd
      have hne : ¬(c.id == x.id) = true := by
        simp
        intro he
        exact hnd.1 x hmem he.symm
      rw [List.findIdx_cons]
      have hre := ih j x hnd.2 hx
      simp [hne, hre]

/-- When the cache bit is set on a well-formed list, the cached pointer
resolves to the cached index. -/
theorem vnut_pos_eq_ruly {A : Type} (l : CList A) (h : ClistWF l)
    (hc : l.cval = true) : vnut_pos l = l.ruly := by
  rcases h with ⟨hnd, hcache⟩
  rcases hcache with hf | ⟨hmap, hne⟩
  · rw [hf] at hc; cases hc
  · rcases hr : l.rul with _ | r
    · exact absurd hr hne
    · rcases hget : l.chain[l.ruly]? with _ | nd
      · rw [hget] at hmap; simp at hmap; rw [hr] at hmap; cases hmap
      · rw [vnut_pos, hr]
        have hid : nd.id = r := by
          rw [hget, hr] at hmap; simpa using hmap
        have hnd2 : (l.chain.map CNode.id).Nodup :=
          ((List.nodup_append.mp hnd).1)
        rw [← hid]
        exact vnut_findIdx_eq l.chain l.ruly nd hnd2 hget

/-- The cached index is in range when the cache bit is set on a well-formed
list. -/
theorem vnut_ruly_lt {A : Type} (l : CList A) (h : ClistWF l)
    (hc : l.cval = true) : l.ruly < l.size := by
  rcases h with ⟨_, hcache⟩
  rcases hcache with hf | ⟨hmap, hne⟩
  · rw [hf] at hc; cases hc
  · rcases hget : l.chain[l.ruly]? with _ | nd
    · rw [hget] at hmap; simp at hmap
      exact absurd hmap.symm hne
    · have := List.getElem?_eq_some_iff.mp hget
      exact this.1

/-! Lemmas about `clist_go`. -/

/-- Out-of-range resolution: NULL, state untouched. -/
theorem clist_go_oob {A : Type} (l : CList A) (idx : Nat)
    (h : l.size ≤ idx) : clist_go l idx = (none, l) := by
  rw [clist_go, if_neg (by omega)]

/-- The resolver never changes the chain, the pool, the configuration or
the allocation count: only the cache fields. -/
theorem clist_go_frame {A : Type} (l : CList A) (idx : Nat) :
    (clist_go l idx).2.chain = l.chain ∧
    (clist_go l idx).2.pool = l.pool ∧
    (clist_go l idx).2.type_size = l.type_size ∧
    (clist_go l idx).2.dyn = l.dyn ∧
    (clist_go l idx).2.allocs = l.allocs := by
  rw [clist_go]
  split
  · split
    · exact ⟨rfl, rfl, rfl, rfl, rfl⟩
    · split
      · exact ⟨rfl, rfl, rfl, rfl, rfl⟩
      · split
        · exact ⟨rfl, rfl, rfl, rfl, rfl⟩
        · split
          · exact ⟨rfl, rfl, rfl, rfl, rfl⟩
          · exact ⟨rfl, rfl, rfl, rfl, rfl⟩
  · exact ⟨rfl, rfl, rfl, rfl, rfl⟩

/-- The resolver does not change the chain. -/
theorem clist_go_chain {A : Type} (l : CList A) (idx : Nat) :
    (clist_go l idx).2.chain = l.chain := (clist_go_frame l idx).1

/-- The resolver does not change the pool. -/
theorem clist_go_pool {A : Type} (l : CList A) (idx : Nat) :
    (clist_go l idx).2.pool = l.pool := (clist_go_frame l idx).2.1

/-- The resolver does not change the allocation count. -/
theorem clist_go_allocs {A : Type} (l : CList A) (idx : Nat) :
    (clist_go l idx).2.allocs = l.allocs := (clist_go_frame l idx).2.2.2.2

/-- The resolver does not change the size. -/
theorem clist_go_size {A : Type} (l : CList A) (idx : Nat) :
    (clist_go l idx).2.size = l.size := by
  show (clist_go l idx).2.chain.length = l.chain.length
  rw [(clist_go_frame l idx).1]

/-- Shortcut resolutions (`idx` = 0, 1, size-1, size-2) leave the whole
list state - in particular the finger cache - unchanged. -/
theorem clist_go_shortcut {A : Type} (l : CList A) (idx : Nat)
    (h : idx = 0 ∨ idx = 1 ∨ idx = l.size - 1 ∨ idx = l.size - 2) :
    (clist_go l idx).2 = l := by
  rw [clist_go]
  split
  · rcases h with h | h | h | h
    · rw [if_pos h]
    · by_cases h0 : idx = 0
      · rw [if_pos h0]
      · rw [if_neg h0, if_pos h]
    · by_cases h0 : idx = 0
      · rw [if_pos h0]
      · by_cases h1 : idx = 1
        · rw [if_neg h0, if_pos h1]
        · rw [if_neg h0, if_neg h1, if_pos h]
    · by_cases h0 : idx = 0
      · rw [if_pos h0]
      · by_cases h1 : idx = 1
        · rw [if_neg h0, if_pos h1]
        · by_cases h2 : idx = l.size - 1
          · rw [if_neg h0, if_neg h1, if_pos h2]
          · rw [if_neg h0, if_neg h1, if_neg h2, if_pos h]
  · rfl

/-- General-branch resolutions set the cache to the resolved node and
index with the validity bit, leaving every other field unchanged. -/
theorem clist_go_general {A : Type} (l : CList A) (idx : Nat)
    (hi : idx < l.size) (h0 : idx ≠ 0) (h1 : idx ≠ 1)
    (h2 : idx ≠ l.size - 1) (h3 : idx ≠ l.size - 2) :
    (clist_go l idx).2 =
      { l with rul := (clist_go l idx).1.map CNode.id, ruly := idx,
               cval := true } := by
  rw [clist_go, if_pos hi, if_neg h0, if_neg h1, if_neg h2, if_neg h3,
    vnut_go_general]

/-- Correctness of the resolver: on a well-formed list an in-range index
resolves to the node at that logical position, whatever anchor was used. -/
theorem clist_go_correct {A : Type} (l : CList A) (h : ClistWF l)
    (idx : Nat) (hi : idx < l.size) :
    (clist_go l idx).1 = l.chain[idx]? := by
  rw [clist_go, if_pos hi]
  by_cases h0 : idx = 0
  · rw [if_pos h0, h0]
  · rw [if_neg h0]
    by_cases h1 : idx = 1
    · rw [if_pos h1, h1]
    · rw [if_neg h1]
      by_cases h2 : idx = l.size - 1
      · rw [if_pos h2]
        show l.chain.getLast? = l.chain[idx]?
        rw [List.getLast?_eq_getElem? l.chain, h2]
        rfl
      · rw [if_neg h2]
        by_cases h3 : idx = l.size - 2
        · rw [if_pos h3]
          show vnut_tail_prev l.chain = l.chain[idx]?
          rw [vnut_tail_prev,
            if_pos (show 2 ≤ l.chain.length by
              have hlen : l.size = l.chain.length := rfl
              omega), h3]
          rfl
        · rw [if_neg h3, vnut_go_general]
          have hlen : l.size = l.chain.length := rfl
          rw [vnut_choose]
          by_cases hc : l.cval
          · rw [if_pos hc]
            have hpos := vnut_pos_eq_ruly l h hc
            have hrlt := vnut_ruly_lt l h hc
            by_cases hc1 : l.ruly ≤ idx
            · rw [if_pos hc1]
              by_cases hc2 : idx - l.ruly ≤ l.size - idx - 1
              · rw [if_pos hc2]
                simp only [hpos]
                rw [vnut_walk_fwd l.chain l.ruly (idx - l.ruly)
                  (by omega) (by omega)]
                have : l.ruly + (idx - l.ruly) = idx := by omega
                rw [this]
              · rw [if_neg hc2]
                rw [vnut_walk_bwd l.chain (l.size - 1) (l.size - idx - 1)
                  (by omega) (by omega)]
                have : l.size - 1 - (l.size - idx - 1) = idx := by omega
                rw [this]
            · rw [if_neg hc1]
              by_cases hc2 : idx ≤ l.ruly - idx
              · rw [if_pos hc2]
                rw [vnut_walk_fwd l.chain 0 idx (by omega) (by omega)]
                have : 0 + idx = idx := by omega
                rw [this]
              · rw [if_neg hc2]
                simp only [hpos]
                rw [vnut_walk_bwd l.chain l.ruly (l.ruly - idx)
                  (by omega) (by omega)]
                have : l.ruly - (l.ruly - idx) = idx := by omega
                rw [this]
          · rw [if_neg hc]
            by_cases hc1 : l.size / 2 < idx
            · rw [if_pos hc1]
              rw [vnut_walk_bwd l.chain (l.size - 1) (l.size - idx - 1)
                (by omega) (by omega)]
              have : l.size - 1 - (l.size - idx - 1) = idx := by omega
              rw [this]
            · rw [if_neg hc1]
              rw [vnut_walk_fwd l.chain 0 idx (by omega) (by omega)]
              have : 0 + idx = idx := by omega
              rw [this]

/-- The resolver preserves well-formedness: it either leaves the cache
alone or re-points it at its own (correct) result. -/
theorem clist_go_wf {A : Type} (l : CList A) (h : ClistWF l) (idx : Nat) :
    ClistWF (clist_go l idx).2 := by
  by_cases hi : idx < l.size
  · by_cases hs : idx = 0 ∨ idx = 1 ∨ idx = l.size - 1 ∨ idx = l.size - 2
    · rw [clist_go_shortcut l idx hs]; exact h
    · push_neg at hs
      rw [clist_go_general l idx hi hs.1 hs.2.1 hs.2.2.1 hs.2.2.2]
      have hfst := clist_go_correct l h idx hi
      have hlen : l.size = l.chain.length := rfl
      obtain ⟨nd, hnd⟩ : ∃ nd, l.chain[idx]? = some nd := by
        exact ⟨l.chain[idx], List.getElem?_eq_getElem (by omega)⟩
      constructor
      · exact h.1
      · right
        constructor
        · show l.chain[idx]?.map CNode.id = (clist_go l idx).1.map CNode.id
          rw [hfst]
        · show (clist_go l idx).1.map CNode.id ≠ none
          rw [hfst, hnd]
          simp
  · rw [clist_go_oob l idx (by omega)]; exact h

/-! Lemmas about `clist_set` and `vnut_memcpy`. -/

/-- The memcpy targets payload bytes only: node addresses are unchanged. -/
theorem vnut_memcpy_ids {A : Type} (chain : List (CNode A)) (tid : Nat)
    (v : A) : (vnut_memcpy chain tid v).map CNode.id = chain.map CNode.id := by
  rw [vnut_memcpy, List.map_map]
  apply List.map_congr_left
  intro a _
  show (if a.id == tid then { a with val := v } else a).id = a.id
  split <;> rfl

/-- Pointwise form of `vnut_memcpy_ids`. -/
theorem vnut_memcpy_getElem_id {A : Type} (chain : List (CNode A))
    (tid : Nat) (v : A) (j : Nat) :
    ((vnut_memcpy chain tid v)[j]?).map CNode.id =
      (chain[j]?).map CNode.id := by
  have h1 : ((vnut_memcpy chain tid v).map CNode.id)[j]? =
      ((chain.map CNode.id))[j]? := by rw [vnut_memcpy_ids]
  rw [List.getElem?_map, List.getElem?_map] at h1
  exact h1

/-- On a chain with distinct addresses, writing through the pointer of the
node at position `j` updates exactly the value at position `j`. -/
theorem vnut_memcpy_vals {A : Type} :
    ∀ (chain : List (CNode A)) (j : Nat) (nd : CNode A) (v : A),
      (chain.map CNode.id).Nodup → chain[j]? = some nd →
      (vnut_memcpy chain nd.id v).map CNode.val =
        (chain.map CNode.val).set j v := by
  intro chain
  induction chain with
  | nil => intro j nd v _ hx; simp at hx
  | cons c rest ih =>
    intro j nd v hnd hx
    rcases j with _ | j
    · simp at hx
      subst hx
      simp at hnd
      rw [vnut_memcpy]
      simp only [List.map_cons, List.set_cons_zero]
      rw [if_pos (by simp)]
      show ({ c with val := v }).val ::
          (rest.map (fun m => if m.id == c.id then { m with val := v }
            else m)).map CNode.val = v :: rest.map CNode.val
      have hrest : rest.map (fun m => if m.id == c.id then { m with val := v }
          else m) = rest := by
        conv_rhs => rw [← List.map_id rest]
        apply List.map_congr_left
        intro a ha
        rw [if_neg (by simp; intro he; exact hnd.1 a ha he)]
        rfl
      rw [hrest]
    · simp at hx
      simp at hnd
      have hmem : nd ∈ rest := List.getElem?_mem hx
      have hcne : ¬(c.id == nd.id) = true := by
        simp
        intro he
        exact hnd.1 nd hmem he.symm
      rw [vnut_memcpy]
      simp only [List.map_cons, List.set_cons_succ]
      rw [if_neg hcne]
      show c.val :: (vnut_memcpy rest nd.id v).map CNode.val =
        c.val :: (rest.map CNode.val).set j v
      rw [ih j nd v hnd.2 hx]

/-- `clist_set` changes no structural field: chain addresses, pool,
configuration and allocation count are untouched. -/
theorem clist_set_frame {A : Type} (l : CList A) (idx : Nat)
    (v : Option A) :
    (clist_set l idx v).chain.map CNode.id = l.chain.map CNode.id ∧
    (clist_set l idx v).pool = l.pool ∧
    (clist_set l idx v).allocs = l.allocs := by
  rcases v with _ | x
  · exact ⟨rfl, rfl, rfl⟩
  · rw [clist_set]
    rcases hg : (clist_go l idx).1 with _ | nd
    · simp only [hg]
      exact ⟨by rw [(clist_go_frame l idx).1], (clist_go_frame l idx).2.1,
        (clist_go_frame l idx).2.2.2.2⟩
    · simp only [hg]
      refine ⟨?_, (clist_go_frame l idx).2.1,
        (clist_go_frame l idx).2.2.2.2⟩
      show (vnut_memcpy (clist_go l idx).2.chain nd.id x).map CNode.id =
        l.chain.map CNode.id
      rw [vnut_memcpy_ids, (clist_go_frame l idx).1]

/-- `clist_set` preserves well-formedness. -/
theorem clist_set_wf {A : Type} (l : CList A) (h : ClistWF l) (idx : Nat)
    (v : Option A) : ClistWF (clist_set l idx v) := by
  rcases v with _ | x
  · exact h
  · have hg2 := clist_go_wf l h idx
    rw [clist_set]
    rcases hg : (clist_go l idx).1 with _ | nd
    · simp only [hg]; exact hg2
    · simp only [hg]
      constructor
      · show ((vnut_memcpy (clist_go l idx).2.chain nd.id x).map CNode.id ++
          (clist_go l idx).2.pool.map CNode.id).Nodup
        rw [vnut_memcpy_ids]
        exact hg2.1
      · rcases hg2.2 with hc | ⟨hmap, hne⟩
        · left; exact hc
        · right
          refine ⟨?_, hne⟩
          show ((vnut_memcpy (clist_go l idx).2.chain nd.id
              x)[(clist_go l idx).2.ruly]?).map CNode.id =
            (clist_go l idx).2.rul
          rw [vnut_memcpy_getElem_id]
          exact hmap

/-- Effect of a successful `clist_set` on the stored values: position `idx`
is overwritten, everything else is unchanged. -/
theorem clist_set_effect {A : Type} (l : CList A) (h : ClistWF l)
    (idx : Nat) (hi : idx < l.size) (v : A) :
    (clist_set l idx (some v)).chain.map CNode.val =
      (l.chain.map CNode.val).set idx v := by
  have hfst := clist_go_correct l h idx hi
  obtain ⟨nd, hnd⟩ : ∃ nd, l.chain[idx]? = some nd :=
    ⟨l.chain[idx], List.getElem?_eq_getElem hi⟩
  rw [clist_set]
  rw [hfst, hnd]
  simp only
  show (vnut_memcpy (clist_go l idx).2.chain nd.id v).map CNode.val =
    (l.chain.map CNode.val).set idx v
  rw [(clist_go_frame l idx).1]
  exact vnut_memcpy_vals l.chain idx nd v (List.nodup_append.mp h.1).1 hnd

/-! Lemmas about insertion. -/

/-- Every member of a list is bounded by its fold-max. -/
theorem vnut_le_fold_max :
    ∀ (L : List Nat) (a : Nat), a ∈ L →
      a ≤ L.foldr (fun x y => max x y) 0 := by
  intro L
  induction L with
  | nil => intro a ha; cases ha
  | cons b t ih =>
    intro a ha
    rcases List.mem_cons.mp ha with h | h
    · subst h; simp
    · have := ih a h
      simp
      right
      omega

/-- A fresh allocation is distinct from every node the list owns. -/
theorem vnut_fresh_not_mem {A : Type} (l : CList A) :
    vnut_fresh l ∉ vnut_ids l := by
  intro hmem
  have := vnut_le_fold_max (vnut_ids l) (vnut_fresh l) hmem
  rw [vnut_fresh] at this
  omega

/-- The chain after `vnut_cl_insert_node`: the node sits immediately before
the node that was at `idx` (at the tail when `idx = size`). -/
theorem vnut_cl_insert_node_chain {A : Type} (l : CList A) (idx : Nat)
    (nd : CNode A) :
    (vnut_cl_insert_node l idx nd).chain =
      l.chain.take idx ++ nd :: l.chain.drop idx := by
  rw [vnut_cl_insert_node]
  split_ifs <;> simp only [clist_go_chain]

/-- `vnut_cl_insert_node` changes neither the pool nor the bookkeeping
fields. -/
theorem vnut_cl_insert_node_frame {A : Type} (l : CList A) (idx : Nat)
    (nd : CNode A) :
    (vnut_cl_insert_node l idx nd).pool = l.pool ∧
    (vnut_cl_insert_node l idx nd).allocs = l.allocs := by
  rw [vnut_cl_insert_node]
  split_ifs <;> exact ⟨by simp only [clist_go_pool], by
    simp only [clist_go_allocs]⟩


/-- Ownership accounting of `vnut_cl_insert_node`: the inserted node's
address joins the list's addresses, nothing else moves. -/
theorem vnut_ids_insert_perm {A : Type} (l : CList A) (idx : Nat)
    (nd : CNode A) :
    List.Perm (vnut_ids (vnut_cl_insert_node l idx nd))
      (nd.id :: vnut_ids l) := by
  rw [vnut_ids, vnut_cl_insert_node_chain l idx nd,
    (vnut_cl_insert_node_frame l idx nd).1, List.map_append, List.map_cons]
  have hmid : List.Perm
      ((l.chain.take idx).map CNode.id ++
        nd.id :: (l.chain.drop idx).map CNode.id)
      (nd.id :: ((l.chain.take idx).map CNode.id ++
        (l.chain.drop idx).map CNode.id)) := List.perm_middle
  refine (hmid.append_right (l.pool.map CNode.id)).trans ?_
  have heq : (nd.id :: ((l.chain.take idx).map CNode.id ++
      (l.chain.drop idx).map CNode.id)) ++ l.pool.map CNode.id =
      nd.id :: vnut_ids l := by
    rw [List.map_take, List.map_drop, List.take_append_drop]
    rfl
  rw [heq]

/-- Cache fields after a middle insert (`0 < idx < size`): force-set to the
new node. -/
theorem vnut_insert_node_mid {A : Type} (l : CList A) (idx : Nat)
    (nd : CNode A) (hmid : idx < l.size ∧ 0 < idx) :
    (vnut_cl_insert_node l idx nd).rul = some nd.id ∧
    (vnut_cl_insert_node l idx nd).ruly = idx ∧
    (vnut_cl_insert_node l idx nd).cval = true := by
  simp only [vnut_cl_insert_node]
  rw [if_pos hmid]
  exact ⟨rfl, rfl, rfl⟩

/-- Cache fields after a front insert: the cached index slides up by one,
pointer and validity bit untouched. -/
theorem vnut_insert_node_front {A : Type} (l : CList A) (nd : CNode A) :
    (vnut_cl_insert_node l 0 nd).rul = l.rul ∧
    (vnut_cl_insert_node l 0 nd).ruly = l.ruly + 1 ∧
    (vnut_cl_insert_node l 0 nd).cval = l.cval := by
  have hl1 : (if (0:Nat) < l.size then (clist_go l 0).2 else l) = l := by
    split
    · exact clist_go_shortcut l 0 (Or.inl rfl)
    · rfl
  simp only [vnut_cl_insert_node, hl1]
  simp

/-- Cache fields after an append (`idx >= size`, `idx != 0`): untouched. -/
theorem vnut_insert_node_append {A : Type} (l : CList A) (idx : Nat)
    (nd : CNode A) (hge : l.size ≤ idx) (h0 : idx ≠ 0) :
    (vnut_cl_insert_node l idx nd).rul = l.rul ∧
    (vnut_cl_insert_node l idx nd).ruly = l.ruly ∧
    (vnut_cl_insert_node l idx nd).cval = l.cval := by
  have hl2 : (clist_go l (idx - 1)).2 = l := by
    by_cases hx : idx - 1 < l.size
    · exact clist_go_shortcut l (idx - 1) (Or.inr (Or.inr (Or.inl (by omega))))
    · rw [clist_go_oob l (idx - 1) (by omega)]
  simp only [vnut_cl_insert_node]
  rw [if_neg (show ¬idx < l.size by omega)]
  rw [if_neg h0, hl2]
  rw [if_neg (show ¬(idx < l.size ∧ 0 < idx) by omega), if_neg h0]
  exact ⟨rfl, rfl, rfl⟩

/-- `vnut_cl_insert_node` preserves well-formedness (given a node that the
list does not already own): the front insert shifts the cached index with
the shifted node, the append leaves all positions alone, and the middle
insert force-points the cache at the new node. -/
theorem vnut_cl_insert_node_wf {A : Type} (l : CList A) (h : ClistWF l)
    (idx : Nat) (nd : CNode A) (hid : nd.id ∉ vnut_ids l) :
    ClistWF (vnut_cl_insert_node l idx nd) := by
  have hlen : l.size = l.chain.length := rfl
  have hchain := vnut_cl_insert_node_chain l idx nd
  have hnodup : (vnut_ids (vnut_cl_insert_node l idx nd)).Nodup :=
    (vnut_ids_insert_perm l idx nd).symm.nodup (List.nodup_cons.mpr ⟨hid, h.1⟩)
  refine ⟨hnodup, ?_⟩
  by_cases hmid : idx < l.size ∧ 0 < idx
  · obtain ⟨hr, hu, hc⟩ := vnut_insert_node_mid l idx nd hmid
    rw [hc, hr, hu, hchain]
    right
    constructor
    · rw [List.getElem?_append_right (by rw [List.length_take]; omega)]
      rw [List.length_take]
      have h00 : idx - min idx l.chain.length = 0 := by omega
      rw [h00]
      simp
    · simp
  · by_cases h0 : idx = 0
    · subst h0
      obtain ⟨hr, hu, hc⟩ := vnut_insert_node_front l nd
      rw [hc, hr, hu, hchain]
      rcases h.2 with hcv | ⟨hmap, hne⟩
      · left; exact hcv
      · right
        refine ⟨?_, hne⟩
        rw [List.take_zero, List.drop_zero, List.nil_append,
          List.getElem?_cons_succ]
        exact hmap
    · have hge : l.size ≤ idx := by omega
      obtain ⟨hr, hu, hc⟩ := vnut_insert_node_append l idx nd hge h0
      rw [hc, hr, hu, hchain]
      rcases h.2 with hcv | ⟨hmap, hne⟩
      · left; exact hcv
      · right
        refine ⟨?_, hne⟩
        rcases hget : l.chain[l.ruly]? with _ | x
        · rw [hget] at hmap
          simp at hmap
          exact absurd hmap.symm hne
        · have hrlt : l.ruly < l.chain.length :=
            (List.getElem?_eq_some_iff.mp hget).1
          rw [List.getElem?_append,
            if_pos (show l.ruly < (l.chain.take idx).length by
              rw [List.length_take]; omega)]
          rw [List.getElem?_take, if_pos (show l.ruly < idx by omega)]
          exact hmap

/-- The two shapes of an in-range `clist_insert`: fresh allocation when the
pool is empty, pool pop otherwise. -/
theorem clist_insert_destruct {A : Type} [Inhabited A] (l : CList A)
    (idx : Nat) (v : Option A) (hle : idx ≤ l.size) :
    (l.pool = [] →
      clist_insert l idx v = (true, vnut_cl_insert_node
        { l with allocs := l.allocs + 1 } idx
        (match v with
         | some x => { id := vnut_fresh l, val := x }
         | none => { id := vnut_fresh l, val := (default : A) }))) ∧
    (∀ (p : CNode A) (rest : List (CNode A)), l.pool = p :: rest →
      clist_insert l idx v = (true, vnut_cl_insert_node
        { l with pool := rest } idx
        (match v with
         | some x => { id := p.id, val := x }
         | none => p))) := by
  constructor
  · intro hp
    rw [clist_insert, if_pos hle, hp]
  · intro p rest hp
    rw [clist_insert, if_pos hle, hp]

/-- Out-of-range insertion: EXIT_FAILURE, nothing changes. -/
theorem clist_insert_oob {A : Type} [Inhabited A] (l : CList A) (idx : Nat)
    (v : Option A) (h : l.size < idx) : clist_insert l idx v = (false, l) := by
  rw [clist_insert, if_neg (by omega)]

/-- In-range insertion reports EXIT_SUCCESS. -/
theorem clist_insert_fst {A : Type} [Inhabited A] (l : CList A) (idx : Nat)
    (v : Option A) (h : idx ≤ l.size) : (clist_insert l idx v).1 = true := by
  rw [clist_insert, if_pos h]

/-- Well-formedness of the intermediate list after a pool pop. -/
theorem clist_pool_pop_wf {A : Type} (l : CList A) (h : ClistWF l)
    (p : CNode A) (rest : List (CNode A)) (hp : l.pool = p :: rest) :
    ClistWF { l with pool := rest } ∧
      p.id ∉ vnut_ids { l with pool := rest } := by
  have hpids : (vnut_ids l).Nodup := h.1
  rw [vnut_ids, hp, List.map_cons] at hpids
  have hsplit := List.nodup_append.mp hpids
  constructor
  · refine ⟨?_, h.2⟩
    show (l.chain.map CNode.id ++ rest.map CNode.id).Nodup
    have hsub : List.Sublist (l.chain.map CNode.id ++ rest.map CNode.id)
        (l.chain.map CNode.id ++ p.id :: rest.map CNode.id) :=
      List.Sublist.append_left
        (List.sublist_cons_self p.id (rest.map CNode.id)) _
    exact hpids.sublist hsub
  · show p.id ∉ l.chain.map CNode.id ++ rest.map CNode.id
    intro hmem
    rcases List.mem_append.mp hmem with hm | hm
    · exact hsplit.2.2 hm (List.mem_cons_self p.id (rest.map CNode.id))
    · exact (List.nodup_cons.mp hsplit.2.1).1 hm

/-- `clist_insert` preserves well-formedness. -/
theorem clist_insert_wf {A : Type} [Inhabited A] (l : CList A)
    (h : ClistWF l) (idx : Nat) (v : Option A) :
    ClistWF (clist_insert l idx v).2 := by
  by_cases hle : idx ≤ l.size
  · rcases hp : l.pool with _ | ⟨p, rest⟩
    · rw [(clist_insert_destruct l idx v hle).1 hp]
      apply vnut_cl_insert_node_wf
      · exact h
      · rcases v with _ | x
        · exact vnut_fresh_not_mem l
        · exact vnut_fresh_not_mem l
    · rw [(clist_insert_destruct l idx v hle).2 p rest hp]
      obtain ⟨hwf1, hppid⟩ := clist_pool_pop_wf l h p rest hp
      apply vnut_cl_insert_node_wf
      · exact hwf1
      · rcases v with _ | x
        · exact hppid
        · exact hppid
  · rw [clist_insert_oob l idx v (by omega)]
    exact h

/-! Lemmas about erasure. -/

/-- Fields of the erase result: the run `[idx, idx+count)` leaves the
chain, its nodes land on the pool last-first, and the bookkeeping fields
are untouched. -/
theorem vnut_erase_res_chain {A : Type} (g : CList A) (idx count : Nat) :
    (vnut_erase_res g idx count).chain =
      g.chain.take idx ++ g.chain.drop (idx + count) := by
  simp only [vnut_erase_res]
  split_ifs <;> rfl

theorem vnut_erase_res_pool {A : Type} (g : CList A) (idx count : Nat) :
    (vnut_erase_res g idx count).pool =
      ((g.chain.drop idx).take count).reverse ++ g.pool := by
  simp only [vnut_erase_res]
  split_ifs <;> rfl

theorem vnut_erase_res_frame {A : Type} (g : CList A) (idx count : Nat) :
    (vnut_erase_res g idx count).allocs = g.allocs ∧
    (vnut_erase_res g idx count).type_size = g.type_size ∧
    (vnut_erase_res g idx count).dyn = g.dyn := by
  simp only [vnut_erase_res]
  split_ifs <;> exact ⟨rfl, rfl, rfl⟩

/-- The decomposition of a chain at an in-range run. -/
theorem vnut_chain_split {A : Type} (chain : List (CNode A))
    (idx count : Nat) :
    chain = chain.take idx ++
      ((chain.drop idx).take count ++ chain.drop (idx + count)) := by
  conv_lhs => rw [← List.take_append_drop idx chain]
  congr 1
  conv_lhs => rw [← List.take_append_drop count (chain.drop idx)]
  rw [List.drop_drop]

/-- Erasure moves addresses from the chain to the pool but neither creates
nor destroys any. -/
theorem vnut_erase_res_ids_perm {A : Type} (g : CList A) (idx count : Nat) :
    List.Perm (vnut_ids (vnut_erase_res g idx count)) (vnut_ids g) := by
  rw [vnut_ids, vnut_ids, vnut_erase_res_chain, vnut_erase_res_pool]
  refine List.perm_iff_count.mpr (fun a => ?_)
  conv_rhs => rw [vnut_chain_split g.chain idx count]
  simp only [List.map_append, List.map_reverse, List.count_append,
    List.count_reverse]
  omega

/-- Erasure preserves well-formedness: either the cache is force-pointed at
the node that now occupies `idx` (which exists in that branch), or a cached
index at or past `idx` clears the bit, or the cached index is before `idx`
and its node did not move. -/
theorem vnut_erase_res_wf {A : Type} (g : CList A) (h : ClistWF g)
    (idx count : Nat) (hbound : idx + count ≤ g.chain.length) :
    ClistWF (vnut_erase_res g idx count) := by
  have hnodup : (vnut_ids (vnut_erase_res g idx count)).Nodup :=
    (vnut_erase_res_ids_perm g idx count).symm.nodup h.1
  refine ⟨hnodup, ?_⟩
  simp only [vnut_erase_res]
  split_ifs with hc1 hc2
  · right
    have hlt : idx + count < g.chain.length := by
      have h2 := hc1.2
      simp only [CList.size] at h2
      rw [List.length_append, List.length_take, List.length_drop] at h2
      omega
    constructor
    · show ((g.chain.take idx ++ g.chain.drop (idx + count))[idx]?).map
        CNode.id = (g.chain[idx + count]?).map CNode.id
      rw [List.getElem?_append_right (by rw [List.length_take]; omega)]
      rw [List.length_take]
      have h0 : idx - min idx g.chain.length = 0 := by omega
      rw [h0, List.getElem?_drop, Nat.add_zero]
    · show (g.chain[idx + count]?).map CNode.id ≠ none
      obtain ⟨nd, hnd⟩ : ∃ nd, g.chain[idx + count]? = some nd :=
        ⟨_, List.getElem?_eq_getElem hlt⟩
      rw [hnd]
      simp
  · left
    rfl
  · rcases h.2 with hcv | ⟨hmap, hne⟩
    · left
      exact hcv
    · right
      refine ⟨?_, hne⟩
      rcases hget : g.chain[g.ruly]? with _ | x
      · rw [hget] at hmap
        simp at hmap
        exact absurd hmap.symm hne
      · have hrlt : g.ruly < g.chain.length :=
          (List.getElem?_eq_some_iff.mp hget).1
        have hrix : g.ruly < idx := by
          simp only [not_le] at hc2
          exact hc2
        show ((g.chain.take idx ++ g.chain.drop (idx + count))[g.ruly]?).map
          CNode.id = g.rul
        rw [List.getElem?_append,
          if_pos (show g.ruly < (g.chain.take idx).length by
            rw [List.length_take]; omega)]
        rw [List.getElem?_take, if_pos hrix]
        exact hmap

/-- A failed bounds check (including `count = 0`) leaves the list exactly
as it was. -/
theorem clist_erase_noop {A : Type} (l : CList A) (idx count : Nat)
    (h : ¬((idx + count) % w64 ≤ l.size ∧ 0 < count)) :
    clist_erase l idx count = some l := by
  rw [clist_erase, if_neg h]

/-- A legitimate in-range erasure on a well-formed list: it succeeds (no
crash), removes exactly the run `[idx, idx+count)` from the chain, pushes
those nodes onto the pool (reversed, stack order), allocates nothing, and
preserves well-formedness. -/
theorem clist_erase_spec {A : Type} (l : CList A) (h : ClistWF l)
    (idx count : Nat) (hbound : idx + count ≤ l.size) (hc : 0 < count)
    (hw : idx + count < w64) :
    ∃ l2, clist_erase l idx count = some l2 ∧
      l2.chain = l.chain.take idx ++ l.chain.drop (idx + count) ∧
      l2.pool = ((l.chain.drop idx).take count).reverse ++ l.pool ∧
      l2.allocs = l.allocs ∧ l2.type_size = l.type_size ∧ l2.dyn = l.dyn ∧
      ClistWF l2 := by
  have hlen : l.size = l.chain.length := rfl
  have hmod1 : (idx + count) % w64 = idx + count := Nat.mod_eq_of_lt hw
  have hmod2 : (idx + count - 1) % w64 = idx + count - 1 :=
    Nat.mod_eq_of_lt (by omega)
  have hwf1 : ClistWF (clist_go l idx).2 := clist_go_wf l h idx
  obtain ⟨nd1, hnd1⟩ : ∃ nd, l.chain[idx]? = some nd :=
    ⟨_, List.getElem?_eq_getElem (by omega)⟩
  have hfst1 : (clist_go l idx).1 = some nd1 := by
    rw [clist_go_correct l h idx (by omega), hnd1]
  obtain ⟨nd2, hnd2⟩ : ∃ nd, l.chain[idx + count - 1]? = some nd :=
    ⟨_, List.getElem?_eq_getElem (by omega)⟩
  have hfst2 : (clist_go (clist_go l idx).2 ((idx + count - 1) % w64)).1 =
      some nd2 := by
    rw [hmod2, clist_go_correct _ hwf1 _ (by rw [clist_go_size]; omega),
      clist_go_chain, hnd2]
  have hwf2 : ClistWF (clist_go (clist_go l idx).2 ((idx + count - 1) %
      w64)).2 := clist_go_wf _ hwf1 _
  have hch2 : (clist_go (clist_go l idx).2 ((idx + count - 1) %
      w64)).2.chain = l.chain := by rw [clist_go_chain, clist_go_chain]
  have hpool2 : (clist_go (clist_go l idx).2 ((idx + count - 1) %
      w64)).2.pool = l.pool := by rw [clist_go_pool, clist_go_pool]
  have hall2 : (clist_go (clist_go l idx).2 ((idx + count - 1) %
      w64)).2.allocs = l.allocs := by rw [clist_go_allocs, clist_go_allocs]
  have hts2 : (clist_go (clist_go l idx).2 ((idx + count - 1) %
      w64)).2.type_size = l.type_size := by
    rw [(clist_go_frame _ _).2.2.1, (clist_go_frame _ _).2.2.1]
  have hdyn2 : (clist_go (clist_go l idx).2 ((idx + count - 1) %
      w64)).2.dyn = l.dyn := by
    rw [(clist_go_frame _ _).2.2.2.1, (clist_go_frame _ _).2.2.2.1]
  have hE : clist_erase l idx count = vnut_erase_core
      (clist_go (clist_go l idx).2 ((idx + count - 1) % w64)).2 idx count := by
    simp only [clist_erase]
    rw [if_pos (show (idx + count) % w64 ≤ l.size ∧ 0 < count from
      ⟨by rw [hmod1]; omega, hc⟩), hfst1, hfst2]
  rw [hE, vnut_erase_core, if_pos (show idx + count ≤ _ by rw [hch2]; omega)]
  refine ⟨_, rfl, ?_, ?_, ?_, ?_, ?_, ?_⟩
  · rw [vnut_erase_res_chain, hch2]
  · rw [vnut_erase_res_pool, hch2, hpool2]
  · rw [(vnut_erase_res_frame _ _ _).1, hall2]
  · rw [(vnut_erase_res_frame _ _ _).2.1, hts2]
  · rw [(vnut_erase_res_frame _ _ _).2.2, hdyn2]
  · exact vnut_erase_res_wf _ hwf2 idx count (by rw [hch2]; omega)

/-- The erase clause of the cache invariant: any call with a size_t
representable `idx + count` that returns (rather than crashing) preserves
well-formedness. -/
theorem clist_erase_wf {A : Type} (l : CList A) (h : ClistWF l)
    (idx count : Nat) (hw : idx + count < w64) (l2 : CList A)
    (hE : clist_erase l idx count = some l2) : ClistWF l2 := by
  by_cases hg : (idx + count) % w64 ≤ l.size ∧ 0 < count
  · have hb : idx + count ≤ l.size := by
      rw [Nat.mod_eq_of_lt hw] at hg
      exact hg.1
    obtain ⟨l2', hE', _, _, _, _, _, hwf'⟩ :=
      clist_erase_spec l h idx count hb hg.2 hw
    rw [hE'] at hE
    injection hE with hEq
    rw [← hEq]
    exact hwf'
  · rw [clist_erase_noop l idx count hg] at hE
    injection hE with hEq
    rw [← hEq]
    exact h

/-! Lemmas about splicing. -/

/-- The resolver does not change the element size. -/
theorem clist_go_ts {A : Type} (l : CList A) (idx : Nat) :
    (clist_go l idx).2.type_size = l.type_size := (clist_go_frame l idx).2.2.1

/-- The resolver does not change the ownership bit. -/
theorem clist_go_dyn {A : Type} (l : CList A) (idx : Nat) :
    (clist_go l idx).2.dyn = l.dyn := (clist_go_frame l idx).2.2.2.1

theorem vnut_splice_src_chain {A : Type} (s2 : CList A) (idx count : Nat) :
    (vnut_splice_src s2 idx count).chain =
      s2.chain.take idx ++ s2.chain.drop (idx + count) := by
  simp only [vnut_splice_src]
  split_ifs <;> rfl

theorem vnut_splice_src_frame {A : Type} (s2 : CList A) (idx count : Nat) :
    (vnut_splice_src s2 idx count).pool = s2.pool ∧
    (vnut_splice_src s2 idx count).allocs = s2.allocs ∧
    (vnut_splice_src s2 idx count).type_size = s2.type_size ∧
    (vnut_splice_src s2 idx count).dyn = s2.dyn := by
  simp only [vnut_splice_src]
  split_ifs <;> exact ⟨rfl, rfl, rfl, rfl⟩

/-- The source-side unlink preserves well-formedness: a cached index at or
past the unlinked run clears the bit, an earlier one keeps its node. -/
theorem vnut_splice_src_wf {A : Type} (s2 : CList A) (h : ClistWF s2)
    (idx count : Nat) : ClistWF (vnut_splice_src s2 idx count) := by
  have hsub : List.Sublist
      (s2.chain.take idx ++ s2.chain.drop (idx + count)) s2.chain := by
    conv_rhs => rw [← List.take_append_drop idx s2.chain]
    apply List.Sublist.append_left
    have h1 : s2.chain.drop (idx + count) =
        (s2.chain.drop idx).drop count := by rw [List.drop_drop]
    rw [h1]
    exact List.drop_sublist count (s2.chain.drop idx)
  have hnodup : (vnut_ids (vnut_splice_src s2 idx count)).Nodup := by
    rw [vnut_ids, vnut_splice_src_chain, (vnut_splice_src_frame _ _ _).1]
    exact h.1.sublist ((hsub.map CNode.id).append_right _)
  refine ⟨hnodup, ?_⟩
  simp only [vnut_splice_src]
  split_ifs with hc
  · left
    rfl
  · rcases h.2 with hcv | ⟨hmap, hne⟩
    · left
      exact hcv
    · right
      refine ⟨?_, hne⟩
      rcases hget : s2.chain[s2.ruly]? with _ | x
      · rw [hget] at hmap
        simp at hmap
        exact absurd hmap.symm hne
      · have hrlt : s2.ruly < s2.chain.length :=
          (List.getElem?_eq_some_iff.mp hget).1
        have hrix : s2.ruly < idx := by
          simp only [not_le] at hc
          exact hc
        show ((s2.chain.take idx ++
            s2.chain.drop (idx + count))[s2.ruly]?).map CNode.id = s2.rul
        rw [List.getElem?_append,
          if_pos (show s2.ruly < (s2.chain.take idx).length by
            rw [List.length_take]; omega)]
        rw [List.getElem?_take, if_pos hrix]
        exact hmap

theorem vnut_splice_dst_prep_chain {A : Type} (d : CList A) (pos : Nat) :
    (vnut_splice_dst_prep d pos).chain = d.chain := by
  simp only [vnut_splice_dst_prep]
  split_ifs <;> simp only [clist_go_chain]

theorem vnut_splice_dst_prep_frame {A : Type} (d : CList A) (pos : Nat) :
    (vnut_splice_dst_prep d pos).pool = d.pool ∧
    (vnut_splice_dst_prep d pos).allocs = d.allocs ∧
    (vnut_splice_dst_prep d pos).type_size = d.type_size ∧
    (vnut_splice_dst_prep d pos).dyn = d.dyn := by
  simp only [vnut_splice_dst_prep]
  split_ifs <;>
    exact ⟨by simp only [clist_go_pool], by simp only [clist_go_allocs],
      by simp only [clist_go_ts], by simp only [clist_go_dyn]⟩

theorem vnut_splice_dst_prep_wf {A : Type} (d : CList A) (h : ClistWF d)
    (pos : Nat) : ClistWF (vnut_splice_dst_prep d pos) := by
  simp only [vnut_splice_dst_prep]
  by_cases h0 : pos = 0
  · rw [if_pos h0]
    split_ifs
    · exact clist_go_wf _ h _
    · exact h
  · rw [if_neg h0]
    split_ifs
    · exact clist_go_wf _ (clist_go_wf _ h _) _
    · exact clist_go_wf _ h _

theorem vnut_splice_dst_chain {A : Type} (d : CList A) (pos : Nat)
    (moved : List (CNode A)) :
    (vnut_splice_dst d pos moved).chain =
      d.chain.take pos ++ moved ++ d.chain.drop pos := by
  simp only [vnut_splice_dst]
  split_ifs <;> simp only [vnut_splice_dst_prep_chain]

theorem vnut_splice_dst_frame {A : Type} (d : CList A) (pos : Nat)
    (moved : List (CNode A)) :
    (vnut_splice_dst d pos moved).pool = d.pool ∧
    (vnut_splice_dst d pos moved).allocs = d.allocs ∧
    (vnut_splice_dst d pos moved).type_size = d.type_size ∧
    (vnut_splice_dst d pos moved).dyn = d.dyn := by
  simp only [vnut_splice_dst]
  split_ifs <;>
    exact ⟨(vnut_splice_dst_prep_frame _ _).1,
      (vnut_splice_dst_prep_frame _ _).2.1,
      (vnut_splice_dst_prep_frame _ _).2.2.1,
      (vnut_splice_dst_prep_frame _ _).2.2.2⟩

/-- The moved run's addresses join the destination's addresses. -/
theorem vnut_splice_dst_ids_perm {A : Type} (d : CList A) (pos : Nat)
    (moved : List (CNode A)) :
    List.Perm (vnut_ids (vnut_splice_dst d pos moved))
      (moved.map CNode.id ++ vnut_ids d) := by
  rw [vnut_ids, vnut_splice_dst_chain, (vnut_splice_dst_frame _ _ _).1]
  refine List.perm_iff_count.mpr (fun a => ?_)
  conv_rhs => rw [vnut_ids]
  conv_rhs => rw [show d.chain = d.chain.take pos ++ d.chain.drop pos from
    (List.take_append_drop pos d.chain).symm]
  simp only [List.map_append, List.count_append]
  omega

/-- The destination-side splice-in preserves well-formedness when the moved
nodes are distinct and foreign to the destination. -/
theorem vnut_splice_dst_wf {A : Type} (d : CList A) (h : ClistWF d)
    (pos : Nat) (moved : List (CNode A)) (hpos : pos ≤ d.size)
    (hmd : (moved.map CNode.id).Nodup)
    (hdisj : ∀ a ∈ moved.map CNode.id, a ∉ vnut_ids d) :
    ClistWF (vnut_splice_dst d pos moved) := by
  have hlen : d.size = d.chain.length := rfl
  have hnodup : (vnut_ids (vnut_splice_dst d pos moved)).Nodup := by
    refine (vnut_splice_dst_ids_perm d pos moved).symm.nodup ?_
    exact List.nodup_append.mpr ⟨hmd, h.1, fun a ha => hdisj a ha⟩
  refine ⟨hnodup, ?_⟩
  have hprep := vnut_splice_dst_prep_wf d h pos
  have hprepc := vnut_splice_dst_prep_chain d pos
  simp only [vnut_splice_dst]
  generalize hq : vnut_splice_dst_prep d pos = q
  rw [hq] at hprep hprepc
  split_ifs with hc
  · left
    rfl
  · rcases hprep.2 with hcv | ⟨hmap, hne⟩
    · left
      exact hcv
    · right
      refine ⟨?_, hne⟩
      rcases hget : q.chain[q.ruly]? with _ | x
      · rw [hget] at hmap
        simp at hmap
        exact absurd hmap.symm hne
      · have hrlt : q.ruly < q.chain.length :=
          (List.getElem?_eq_some_iff.mp hget).1
        have hrix : q.ruly < pos := by
          simp only [not_le] at hc
          exact hc
        show ((q.chain.take pos ++ moved ++
            q.chain.drop pos)[q.ruly]?).map CNode.id = q.rul
        rw [List.append_assoc, List.getElem?_append,
          if_pos (show q.ruly < (q.chain.take pos).length by
            rw [List.length_take]; omega)]
        rw [List.getElem?_take, if_pos hrix]
        exact hmap

/-- Either NULL-equivalent guard failure leaves both lists untouched. -/
theorem clist_splice_noop {A : Type} (s : CList A) (idx count : Nat)
    (d : CList A) (pos : Nat)
    (h : ¬((idx + count) % w64 ≤ s.size ∧ pos ≤ d.size ∧
      s.type_size = d.type_size ∧ s.dyn = d.dyn ∧ 0 < count)) :
    clist_splice s idx count d pos = some (s, d) := by
  rw [clist_splice, if_neg h]

/-- A legitimate splice on well-formed lists: it succeeds (no crash), the
run `[idx, idx+count)` leaves the source chain and lands, in order, before
position `pos` of the destination chain; pools and allocation counts of
both lists are untouched, and the source side stays well-formed. -/
theorem clist_splice_spec {A : Type} (s d : CList A) (hs : ClistWF s)
    (idx count pos : Nat) (hbound : idx + count ≤ s.size) (hc : 0 < count)
    (hpos : pos ≤ d.size) (hts : s.type_size = d.type_size)
    (hdy : s.dyn = d.dyn) (hw : idx + count < w64) :
    ∃ r, clist_splice s idx count d pos = some r ∧
      r.1.chain = s.chain.take idx ++ s.chain.drop (idx + count) ∧
      r.2.chain = d.chain.take pos ++ (s.chain.drop idx).take count ++
        d.chain.drop pos ∧
      r.1.pool = s.pool ∧ r.2.pool = d.pool ∧
      r.1.allocs = s.allocs ∧ r.2.allocs = d.allocs ∧
      ClistWF r.1 ∧
      r.2 = vnut_splice_dst d pos ((s.chain.drop idx).take count) := by
  have hlen : s.size = s.chain.length := rfl
  have hmod1 : (idx + count) % w64 = idx + count := Nat.mod_eq_of_lt hw
  have hmod2 : (idx + count - 1) % w64 = idx + count - 1 :=
    Nat.mod_eq_of_lt (by omega)
  have hwf1 : ClistWF (clist_go s idx).2 := clist_go_wf s hs idx
  obtain ⟨nd1, hnd1⟩ : ∃ nd, s.chain[idx]? = some nd :=
    ⟨_, List.getElem?_eq_getElem (by omega)⟩
  have hfst1 : (clist_go s idx).1 = some nd1 := by
    rw [clist_go_correct s hs idx (by omega), hnd1]
  obtain ⟨nd2, hnd2⟩ : ∃ nd, s.chain[idx + count - 1]? = some nd :=
    ⟨_, List.getElem?_eq_getElem (by omega)⟩
  have hfst2 : (clist_go (clist_go s idx).2 ((idx + count - 1) % w64)).1 =
      some nd2 := by
    rw [hmod2, clist_go_correct _ hwf1 _ (by rw [clist_go_size]; omega),
      clist_go_chain, hnd2]
  have hwf2 : ClistWF (clist_go (clist_go s idx).2 ((idx + count - 1) %
      w64)).2 := clist_go_wf _ hwf1 _
  have hch2 : (clist_go (clist_go s idx).2 ((idx + count - 1) %
      w64)).2.chain = s.chain := by rw [clist_go_chain, clist_go_chain]
  have hpool2 : (clist_go (clist_go s idx).2 ((idx + count - 1) %
      w64)).2.pool = s.pool := by rw [clist_go_pool, clist_go_pool]
  have hall2 : (clist_go (clist_go s idx).2 ((idx + count - 1) %
      w64)).2.allocs = s.allocs := by rw [clist_go_allocs, clist_go_allocs]
  have hE : clist_splice s idx count d pos = some
      (vnut_splice_src
        (clist_go (clist_go s idx).2 ((idx + count - 1) % w64)).2 idx count,
       vnut_splice_dst d pos
        (((clist_go (clist_go s idx).2 ((idx + count - 1) %
          w64)).2.chain.drop idx).take count)) := by
    simp only [clist_splice]
    rw [if_pos (show (idx + count) % w64 ≤ s.size ∧ pos ≤ d.size ∧
        s.type_size = d.type_size ∧ s.dyn = d.dyn ∧ 0 < count from
      ⟨by rw [hmod1]; omega, hpos, hts, hdy, hc⟩), hfst1, hfst2]
  refine ⟨_, hE, ?_, ?_, ?_, ?_, ?_, ?_, ?_, ?_⟩
  · rw [vnut_splice_src_chain, hch2]
  · rw [vnut_splice_dst_chain, hch2]
  · rw [(vnut_splice_src_frame _ _ _).1, hpool2]
  · rw [(vnut_splice_dst_frame _ _ _).1]
  · rw [(vnut_splice_src_frame _ _ _).2.1, hall2]
  · rw [(vnut_splice_dst_frame _ _ _).2.1]
  · exact vnut_splice_src_wf _ hwf2 idx count
  · show vnut_splice_dst d pos _ = vnut_splice_dst d pos _
    rw [hch2]

/-- The splice clause of the cache invariant: with a representable
`idx + count` and disjoint node addresses, any returning call preserves
well-formedness of both lists. -/
theorem clist_splice_wf {A : Type} (s d : CList A) (hs : ClistWF s)
    (hd : ClistWF d) (idx count pos : Nat) (hw : idx + count < w64)
    (hdisj : ∀ a ∈ vnut_ids s, a ∉ vnut_ids d)
    (r : CList A × CList A)
    (hE : clist_splice s idx count d pos = some r) :
    ClistWF r.1 ∧ ClistWF r.2 := by
  by_cases hg : (idx + count) % w64 ≤ s.size ∧ pos ≤ d.size ∧
      s.type_size = d.type_size ∧ s.dyn = d.dyn ∧ 0 < count
  · have hb : idx + count ≤ s.size := by
      have := hg.1
      rw [Nat.mod_eq_of_lt hw] at this
      exact this
    obtain ⟨r', hE', _, _, _, _, _, _, hwf1, hr2⟩ :=
      clist_splice_spec s d hs idx count pos hb hg.2.2.2.2 hg.2.1
        hg.2.2.1 hg.2.2.2.1 hw
    rw [hE'] at hE
    injection hE with hEq
    rw [← hEq]
    refine ⟨hwf1, ?_⟩
    rw [hr2]
    have hmv_sub : List.Sublist ((s.chain.drop idx).take count) s.chain :=
      List.Sublist.trans (List.take_sublist ..) (List.drop_sublist ..)
    apply vnut_splice_dst_wf d hd pos _ hg.2.1
    · exact ((List.nodup_append.mp hs.1).1).sublist (hmv_sub.map CNode.id)
    · intro a ha
      apply hdisj a
      rw [vnut_ids]
      exact List.mem_append_left _ ((hmv_sub.map CNode.id).subset ha)
  · rw [clist_splice_noop s idx count d pos hg] at hE
    injection hE with hEq
    rw [← hEq]
    exact ⟨hs, hd⟩

/-! Lemmas about filtering. -/

/-- Clearing the validity bit always preserves well-formedness. -/
theorem vnut_cval_false_wf {A : Type} (l : CList A) (h : ClistWF l) :
    ClistWF { l with cval := false } := ⟨h.1, Or.inl rfl⟩

/-- The filter loop with `fuel` iterations left processes exactly the first
`fuel` positions (tail-to-head): it cannot crash, it applies the predicate
to each of their payloads exactly once in reverse order (the trace), keeps
precisely the survivors in place, and preserves well-formedness. -/
theorem vnut_filter_loop_spec {A : Type} (f : A → Int) (len : Nat) :
    ∀ (fuel : Nat) (l : CList A) (delIdx : Nat), ClistWF l →
      fuel ≤ l.chain.length → l.chain.length < w64 →
      ∃ l2 d tr, vnut_filter_loop f len fuel l delIdx = some (l2, d, tr) ∧
        l2.chain = (l.chain.take fuel).filter
          (fun nd => !(f nd.val == 0)) ++ l.chain.drop fuel ∧
        tr = ((l.chain.take fuel).map CNode.val).reverse ∧
        ClistWF l2 := by
  intro fuel
  induction fuel with
  | zero =>
    intro l delIdx h _ _
    exact ⟨l, delIdx, [], rfl, by simp, by simp, h⟩
  | succ n ih =>
    intro l delIdx h hle hw
    have hlen : l.size = l.chain.length := rfl
    obtain ⟨nd, hnd⟩ : ∃ nd, l.chain[n]? = some nd :=
      ⟨_, List.getElem?_eq_getElem (by omega)⟩
    have hfst : (clist_go l n).1 = some nd := by
      rw [clist_go_correct l h n (by omega), hnd]
    have hwf1 : ClistWF (clist_go l n).2 := clist_go_wf l h n
    have htake : l.chain.take (n + 1) = l.chain.take n ++ [nd] := by
      rw [List.take_succ, hnd]
      rfl
    have hdropc : l.chain.drop n = nd :: l.chain.drop (n + 1) := by
      obtain ⟨hlt, hv⟩ := List.getElem?_eq_some_iff.mp hnd
      rw [List.drop_eq_getElem_cons hlt, hv]
    by_cases hz : f nd.val == 0
    · obtain ⟨l2', hE', hch', _, _, _, _, hwf'⟩ :=
        clist_erase_spec (clist_go l n).2 hwf1 n 1
          (by rw [clist_go_size]; omega) (by omega) (by omega)
      rw [clist_go_chain] at hch'
      have hl2len : l2'.chain.length = l.chain.length - 1 := by
        rw [hch', List.length_append, List.length_take, List.length_drop]
        omega
      obtain ⟨l3, d3, tr3, hEq3, hch3, htr3, hwf3⟩ :=
        ih l2' (len - (n + 1)) hwf' (by omega) (by omega)
      have ht : l2'.chain.take n = l.chain.take n := by
        rw [hch']
        exact List.take_left' (by rw [List.length_take]; omega)
      have hd : l2'.chain.drop n = l.chain.drop (n + 1) := by
        rw [hch']
        exact List.drop_left' (by rw [List.length_take]; omega)
      refine ⟨l3, d3, nd.val :: tr3, ?_, ?_, ?_, hwf3⟩
      · simp only [vnut_filter_loop]
        simp only [hfst]
        rw [if_pos hz]
        simp only [hE', hEq3]
        rfl
      · rw [hch3, ht, hd, htake, List.filter_append]
        have h1 : [nd].filter (fun nd => !(f nd.val == 0)) = [] := by
          simp [hz]
        rw [h1, List.append_nil]
      · rw [htr3, ht, htake]
        simp
    · obtain ⟨l3, d3, tr3, hEq3, hch3, htr3, hwf3⟩ :=
        ih (clist_go l n).2 delIdx hwf1
          (by rw [show (clist_go l n).2.chain = l.chain from
            clist_go_chain l n]; omega)
          (by rw [show (clist_go l n).2.chain = l.chain from
            clist_go_chain l n]; omega)
      rw [clist_go_chain] at hch3 htr3
      refine ⟨l3, d3, nd.val :: tr3, ?_, ?_, ?_, hwf3⟩
      · simp only [vnut_filter_loop]
        simp only [hfst]
        rw [if_neg hz]
        simp only [hEq3]
        rfl
      · rw [hch3, htake, List.filter_append]
        have h1 : [nd].filter (fun nd => !(f nd.val == 0)) = [nd] := by
          simp [hz]
        rw [h1, hdropc]
        simp
      · rw [htr3, htake]
        simp

/-- `clist_filter` on a well-formed list: it cannot crash, evaluates the
predicate exactly once per element in tail-to-head order (the trace is the
reversed value sequence), and leaves exactly the elements with non-zero
predicate, in their original relative order; well-formedness is
preserved. -/
theorem clist_filter_spec {A : Type} (l : CList A) (h : ClistWF l)
    (f : A → Int) (hw : l.size < w64) :
    ∃ r, clist_filter l f = some r ∧
      r.1.chain = l.chain.filter (fun nd => !(f nd.val == 0)) ∧
      r.2 = (l.chain.map CNode.val).reverse ∧
      ClistWF r.1 := by
  obtain ⟨l2, d, tr, hEq, hch, htr, hwf⟩ :=
    vnut_filter_loop_spec f l.size l.size l l.size h (le_refl _) hw
  have hsz : l.size = l.chain.length := rfl
  rw [hsz, List.take_length, List.drop_length, List.append_nil] at hch
  rw [hsz, List.take_length] at htr
  simp only [clist_filter]
  rw [hEq]
  simp only [Option.map_some']
  refine ⟨_, rfl, ?_, ?_, ?_⟩
  · show (if d ≤ l2.ruly then { l2 with cval := false } else l2).chain = _
    split_ifs <;> exact hch
  · exact htr
  · show ClistWF (if d ≤ l2.ruly then { l2 with cval := false } else l2)
    split_ifs
    · exact vnut_cval_false_wf l2 hwf
    · exact hwf

/-! Derived mutators: pops, clear, resize, shrink, destroy. -/

/-- `clist_pop_front` cannot crash and preserves well-formedness. -/
theorem clist_pop_front_wf {A : Type} (l : CList A) (h : ClistWF l)
    (l2 : CList A) (hE : clist_pop_front l = some l2) : ClistWF l2 :=
  clist_erase_wf l h 0 1 (by rw [w64]; omega) l2 hE

/-- `clist_clear` preserves well-formedness. -/
theorem clist_clear_wf {A : Type} (l : CList A) (h : ClistWF l)
    (hw : l.size < w64) (l2 : CList A) (hE : clist_clear l = some l2) :
    ClistWF l2 :=
  clist_erase_wf l h 0 l.size (by omega) l2 hE

/-- `clist_shrink_to_fit` preserves well-formedness. -/
theorem clist_shrink_to_fit_wf {A : Type} (l : CList A) (h : ClistWF l) :
    ClistWF (clist_shrink_to_fit l) := by
  constructor
  · show (l.chain.map CNode.id ++ ([] : List (CNode A)).map CNode.id).Nodup
    have hsub : List.Sublist
        (l.chain.map CNode.id ++ ([] : List (CNode A)).map CNode.id)
        (vnut_ids l) := by
      rw [vnut_ids]
      exact List.Sublist.append_left (List.nil_sublist _) _
    exact h.1.sublist hsub
  · exact h.2

/-- `clist_destroy` preserves well-formedness. -/
theorem clist_destroy_wf {A : Type} (l : CList A) (h : ClistWF l)
    (hw : l.size < w64) (l2 : CList A) (hE : clist_destroy l = some l2) :
    ClistWF l2 := by
  rw [clist_destroy] at hE
  rcases hc : clist_clear l with _ | l1
  · rw [hc] at hE
    cases hE
  · rw [hc] at hE
    simp only [Option.map_some'] at hE
    injection hE with hEq
    rw [← hEq]
    exact clist_shrink_to_fit_wf l1 (clist_clear_wf l h hw l1 hc)

/-- The growth loop preserves well-formedness. -/
theorem vnut_resize_grow_wf {A : Type} [Inhabited A] :
    ∀ (n : Nat) (l : CList A) (elem : Option A), ClistWF l →
      ClistWF (vnut_resize_grow l n elem).2 := by
  intro n
  induction n with
  | zero => intro l elem h; exact h
  | succ m ih =>
    intro l elem h
    rw [vnut_resize_grow]
    rw [clist_insert_fst l l.size elem (le_refl _)]
    simp only [if_true]
    exact ih _ elem (clist_insert_wf l h l.size elem)

/-- `clist_resize` cannot crash on a well-formed list and preserves
well-formedness. -/
theorem clist_resize_wf {A : Type} [Inhabited A] (l : CList A)
    (h : ClistWF l) (hw : l.size < w64) (n : Nat) (elem : Option A)
    (r : Bool × CList A) (hE : clist_resize l n elem = some r) :
    ClistWF r.2 := by
  rw [clist_resize] at hE
  by_cases h1 : n = l.size
  · rw [if_pos h1] at hE
    injection hE with hEq
    rw [← hEq]
    exact h
  · rw [if_neg h1] at hE
    by_cases h2 : n < l.size
    · rw [if_pos h2] at hE
      obtain ⟨l2, hE2, _, _, _, _, _, hwf2⟩ :=
        clist_erase_spec l h n (l.size - n) (by omega) (by omega) (by omega)
      rw [hE2] at hE
      injection hE with hEq
      rw [← hEq]
      show ClistWF (if n ≤ l2.ruly then { l2 with cval := false } else l2)
      split_ifs
      · exact vnut_cval_false_wf l2 hwf2
      · exact hwf2
    · rw [if_neg h2] at hE
      injection hE with hEq
      rw [← hEq]
      exact vnut_resize_grow_wf (n - l.size) l elem h

/-! Effect of insertion on chain, pool and allocation count. -/

/-- A successful insert with a payload places a node carrying that value
immediately before the old position `idx`. -/
theorem clist_insert_chain {A : Type} [Inhabited A] (l : CList A)
    (idx : Nat) (v : A) (hle : idx ≤ l.size) :
    ∃ nd : CNode A, nd.val = v ∧
      (clist_insert l idx (some v)).2.chain =
        l.chain.take idx ++ nd :: l.chain.drop idx := by
  rcases hp : l.pool with _ | ⟨p, rest⟩
  · rw [(clist_insert_destruct l idx (some v) hle).1 hp]
    refine ⟨⟨vnut_fresh l, v⟩, rfl, ?_⟩
    rw [vnut_cl_insert_node_chain]
  · rw [(clist_insert_destruct l idx (some v) hle).2 p rest hp]
    refine ⟨⟨p.id, v⟩, rfl, ?_⟩
    rw [vnut_cl_insert_node_chain]

/-- A successful insert pops the pool head when the pool is non-empty and
allocates nothing. -/
theorem clist_insert_pool_pop {A : Type} [Inhabited A] (l : CList A)
    (idx : Nat) (v : Option A) (hle : idx ≤ l.size) (p : CNode A)
    (rest : List (CNode A)) (hp : l.pool = p :: rest) :
    (clist_insert l idx v).2.pool = rest ∧
    (clist_insert l idx v).2.allocs = l.allocs := by
  rw [(clist_insert_destruct l idx v hle).2 p rest hp]
  exact ⟨by rw [(vnut_cl_insert_node_frame _ _ _).1],
    by rw [(vnut_cl_insert_node_frame _ _ _).2]⟩

/-- A successful insert on an empty pool performs exactly one fresh
allocation. -/
theorem clist_insert_pool_fresh {A : Type} [Inhabited A] (l : CList A)
    (idx : Nat) (v : Option A) (hle : idx ≤ l.size) (hp : l.pool = []) :
    (clist_insert l idx v).2.pool = [] ∧
    (clist_insert l idx v).2.allocs = l.allocs + 1 := by
  rw [(clist_insert_destruct l idx v hle).1 hp]
  exact ⟨by rw [(vnut_cl_insert_node_frame _ _ _).1]; exact hp,
    by rw [(vnut_cl_insert_node_frame _ _ _).2]⟩

/-- An insertion burst that fits in the free pool triggers no fresh
allocation: each in-range insert pops the pool, each out-of-range insert
does nothing. -/
theorem insertFold_allocs {A : Type} [Inhabited A] :
    ∀ (ps : List (Nat × Option A)) (l : CList A),
      ps.length ≤ l.pool.length → (insertFold l ps).allocs = l.allocs := by
  intro ps
  induction ps with
  | nil => intro l _; rfl
  | cons q qs ih =>
    intro l hlen
    show (insertFold (clist_insert l q.1 q.2).2 qs).allocs = l.allocs
    by_cases hle : q.1 ≤ l.size
    · rcases hp : l.pool with _ | ⟨p, rest⟩
      · rw [hp] at hlen
        simp at hlen
      · obtain ⟨hpool', hall'⟩ := clist_insert_pool_pop l q.1 q.2 hle p rest hp
        rw [ih (clist_insert l q.1 q.2).2 (by
          rw [hpool']
          rw [hp] at hlen
          simp at hlen
          omega), hall']
    · rw [clist_insert_oob l q.1 q.2 (by omega)]
      exact ih l (by simp at hlen; omega)

/-! Building a list by a sequence of inserts mirrors the same sequence of
insertions on a plain value list. -/

theorem build_invariant :
    ∀ (ops : List (Nat × Int)) (l : CList Int) (m : List Int),
      ClistWF l → l.chain.map CNode.val = m →
      ClistWF (ops.foldl (fun l p => (clist_insert l p.1 (some p.2)).2) l) ∧
      (ops.foldl (fun l p =>
        (clist_insert l p.1 (some p.2)).2) l).chain.map CNode.val =
        ops.foldl (fun m p => if p.1 ≤ m.length then
          m.take p.1 ++ p.2 :: m.drop p.1 else m) m := by
  intro ops
  induction ops with
  | nil => intro l m h hm; exact ⟨h, hm⟩
  | cons q qs ih =>
    intro l m h hm
    simp only [List.foldl_cons]
    have hlm : l.size = m.length := by
      show l.chain.length = m.length
      rw [← hm, List.length_map]
    by_cases hle : q.1 ≤ l.size
    · obtain ⟨nd, hval, hch⟩ := clist_insert_chain l q.1 q.2 hle
      apply ih
      · exact clist_insert_wf l h q.1 (some q.2)
      · rw [hch, if_pos (by omega), List.map_append, List.map_cons, hval,
          List.map_take, List.map_drop, hm]
    · rw [clist_insert_oob l q.1 (some q.2) (by omega),
        if_neg (by omega)]
      exact ih l m h hm

/-- The built list is well-formed and its values are exactly the mirrored
insertions. -/
theorem clist_buildL_wf (ops : List (Nat × Int)) :
    ClistWF (buildL ops) ∧ (buildL ops).chain.map CNode.val = buildM ops :=
  build_invariant ops (initList Int 8 false) [] (by decide) rfl

/-! Claim theorems. -/

/-- C1.  Round-trip addressing: for every list built by any sequence of
inserts and every in-range index `i`, `clist_get` returns exactly the
`i`-th value of the mirrored logical sequence; the result is unchanged
with the finger cache forcibly disabled, and more generally any
well-formed list state over the same chain resolves to the same value -
whatever anchor the resolver picked. -/
theorem clist_round_trip_addressing (ops : List (Nat × Int)) (i : Nat)
    (hi : i < (buildL ops).size) :
    (clist_get (buildL ops) i).1 = (buildM ops)[i]? ∧
    (clist_get (buildL ops) i).1 = (clist_get (cacheOff (buildL ops)) i).1 ∧
    (∀ l2 : CList Int, ClistWF l2 → l2.chain = (buildL ops).chain →
      (clist_get l2 i).1 = (clist_get (buildL ops) i).1) ∧
    (∀ v : Int, (clist_set (buildL ops) i (some v)).chain.map CNode.val =
      (clist_set (cacheOff (buildL ops)) i (some v)).chain.map CNode.val) := by
  obtain ⟨hwf, hmap⟩ := clist_buildL_wf ops
  have hwfoff : ClistWF (cacheOff (buildL ops)) :=
    vnut_cval_false_wf (buildL ops) hwf
  have h1 : (clist_get (buildL ops) i).1 = (buildM ops)[i]? := by
    show ((clist_go (buildL ops) i).1).map CNode.val = (buildM ops)[i]?
    rw [clist_go_correct _ hwf i hi, ← hmap, List.getElem?_map]
  refine ⟨h1, ?_, ?_, ?_⟩
  · show ((clist_go (buildL ops) i).1).map CNode.val =
      ((clist_go (cacheOff (buildL ops)) i).1).map CNode.val
    rw [clist_go_correct _ hwf i hi, clist_go_correct _ hwfoff i hi]
    rfl
  · intro l2 hwf2 hch
    show ((clist_go l2 i).1).map CNode.val =
      ((clist_go (buildL ops) i).1).map CNode.val
    rw [clist_go_correct _ hwf2 i
        (by show i < l2.chain.length; rw [hch]; exact hi),
      clist_go_correct _ hwf i hi, hch]
  · intro v
    rw [clist_set_effect _ hwf i hi v, clist_set_effect _ hwfoff i hi v]
    rfl

/-- C1 witness: a concrete insert sequence. -/
theorem clist_round_trip_addressing_witness :
    (clist_get (buildL [(0, 10), (1, 20), (1, 15)]) 1).1 =
      (buildM [(0, 10), (1, 20), (1, 15)])[1]? :=
  (clist_round_trip_addressing [(0, 10), (1, 20), (1, 15)] 1 (by decide)).1

/-- C2 (code bug).  `clist_pop_back` on an initialized empty list: the
claim (and the function's own documentation) says it does nothing, but
`list->size - 1U` underflows to `2^64 - 1`, `clist_erase`'s bounds check
`idx + count <= size` wraps to `0 <= 0` and passes, and the NULL result of
the resolver is dereferenced (`node->prev`) - a crash, `none` in the
model. -/
theorem clist_pop_back_empty_crash :
    cw_pop_back (clist_init Int 4 0) = none := by decide

/-- C3.  The finger-cache validity invariant: on every well-formed list,
every operation either leaves the cache bit clear, re-points the cache at
the node that occupies the cached index afterwards, or clears the bit.
The erase/resize/clear/filter/splice clauses carry the size_t
representability side conditions under which the C call is meaningful, and
the splice clause additionally assumes the two lists share no node
addresses (automatic for distinct allocations in C). -/
theorem clist_cache_validity_invariant {A : Type} [Inhabited A]
    (l : CList A) (h : ClistWF l) :
    (∀ idx, ClistWF (clist_go l idx).2) ∧
    (∀ idx, ClistWF (clist_get l idx).2) ∧
    (∀ idx v, ClistWF (clist_set l idx v)) ∧
    (∀ idx v, ClistWF (clist_insert l idx v).2) ∧
    (∀ idx count l2, idx + count < w64 →
      clist_erase l idx count = some l2 → ClistWF l2) ∧
    (∀ n v r, l.size < w64 → clist_resize l n v = some r → ClistWF r.2) ∧
    (∀ l2, l.size < w64 → clist_clear l = some l2 → ClistWF l2) ∧
    (∀ f r, l.size < w64 → clist_filter l f = some r → ClistWF r.1) ∧
    (∀ (d : CList A) idx count pos r, ClistWF d → idx + count < w64 →
      (∀ a ∈ vnut_ids l, a ∉ vnut_ids d) →
      clist_splice l idx count d pos = some r →
      ClistWF r.1 ∧ ClistWF r.2) := by
  refine ⟨fun idx => clist_go_wf l h idx,
    fun idx => clist_go_wf l h idx,
    fun idx v => clist_set_wf l h idx v,
    fun idx v => clist_insert_wf l h idx v,
    fun idx count l2 hw hE => clist_erase_wf l h idx count hw l2 hE,
    fun n v r hw hE => clist_resize_wf l h hw n v r hE,
    fun l2 hw hE => clist_clear_wf l h hw l2 hE,
    ?_,
    fun d idx count pos r hd hw hdisj hE =>
      clist_splice_wf l d h hd idx count pos hw hdisj r hE⟩
  intro f r hw hE
  obtain ⟨r', hE', _, _, hwf⟩ := clist_filter_spec l h f hw
  rw [hE'] at hE
  injection hE with hEq
  rw [← hEq]
  exact hwf

/-- C3 witness: the invariant holds after a resolution on a concrete
list. -/
theorem clist_cache_validity_invariant_witness :
    ClistWF (clist_go cl5 2).2 :=
  (clist_cache_validity_invariant cl5 (by decide)).1 2

/-- C4 counterexample.  The claim says every successful resolution -
including the O(1) shortcut at index 0 - leaves the finger cache set to
the resolved pair with the validity bit set.  On this well-formed
five-element list with a clear cache bit, resolving index 0 succeeds but
leaves the validity bit clear. -/
theorem clist_go_shortcut_no_cache_update_cex :
    ClistWF cl5 ∧ cl5.cval = false ∧ 0 < cl5.size ∧
    (clist_go cl5 0).1 = some ⟨0, 0⟩ ∧
    (clist_go cl5 0).2.cval = false := by decide

/-- C4 as amended.  Resolutions through the four O(1) shortcut paths leave
the whole list state - including the finger cache - unchanged; every other
successful resolution leaves the cache set to the resolved (node, index)
pair with the validity bit set. -/
theorem clist_go_cache_update_amended {A : Type} (l : CList A)
    (h : ClistWF l) (idx : Nat) (hi : idx < l.size) :
    ((idx = 0 ∨ idx = 1 ∨ idx = l.size - 1 ∨ idx = l.size - 2) →
      (clist_go l idx).2 = l) ∧
    (idx ≠ 0 → idx ≠ 1 → idx ≠ l.size - 1 → idx ≠ l.size - 2 →
      (clist_go l idx).1 = l.chain[idx]? ∧
      (clist_go l idx).2.cval = true ∧
      (clist_go l idx).2.ruly = idx ∧
      (clist_go l idx).2.rul = ((clist_go l idx).1).map CNode.id) := by
  constructor
  · intro hs
    exact clist_go_shortcut l idx hs
  · intro h0 h1 h2 h3
    have hg := clist_go_general l idx hi h0 h1 h2 h3
    refine ⟨clist_go_correct l h idx hi, ?_, ?_, ?_⟩
    · rw [hg]
    · rw [hg]
    · rw [hg]

/-- C4 witness: a general-branch resolution on a concrete list. -/
theorem clist_go_cache_update_amended_witness :
    (clist_go cl6 3).1 = cl6.chain[3]? ∧
    (clist_go cl6 3).2.cval = true ∧
    (clist_go cl6 3).2.ruly = 3 ∧
    (clist_go cl6 3).2.rul = ((clist_go cl6 3).1).map CNode.id :=
  (clist_go_cache_update_amended cl6 (by decide) 3 (by decide)).2
    (by decide) (by decide) (by decide) (by decide)

/-- C5 counterexample.  The claim says the chosen anchor always needs the
fewest steps among the available candidates.  On a six-element list with
the cache bit clear, resolving index 3 (a non-shortcut index) walks
forward from the head with 3 steps although the tail candidate needs only
2: the `idx > len / 2` test rounds the wrong way at the even midpoint. -/
theorem clist_anchor_not_minimal_cex :
    ClistWF cl6 ∧ cl6.cval = false ∧ 3 < cl6.size ∧
    (3 ≠ 0 ∧ 3 ≠ 1 ∧ 3 ≠ cl6.size - 1 ∧ 3 ≠ cl6.size - 2) ∧
    vnut_choose cl6 3 = (0, 3, true) ∧
    cl6.size - 3 - 1 < 3 := by decide

/-- C5 as amended.  When the cache bit is set, the chosen anchor does need
the fewest steps among head, tail and cached node, but the tie-breaks are:
cache preferred over tail (forward side), head preferred over cache
(backward side).  When the cache bit is clear, head is chosen for
`idx <= len/2` and tail otherwise, which is the fewest steps of the two
except at the even midpoint `idx = len/2`, where head needs one step more
than tail. -/
theorem clist_anchor_choice_amended {A : Type} (l : CList A)
    (h : ClistWF l) (idx : Nat) (hi : idx < l.size) :
    (l.cval = true →
      (vnut_choose l idx).2.1 = min (min idx (l.size - idx - 1))
        (if l.ruly ≤ idx then idx - l.ruly else l.ruly - idx)) ∧
    (l.cval = false →
      (vnut_choose l idx).2.1 =
        if l.size / 2 < idx then l.size - idx - 1 else idx) ∧
    (l.cval = false → l.size % 2 = 1 ∨ idx ≠ l.size / 2 →
      (vnut_choose l idx).2.1 = min idx (l.size - idx - 1)) ∧
    (l.cval = true → l.ruly ≤ idx → idx - l.ruly = l.size - idx - 1 →
      (vnut_choose l idx).1 = vnut_pos l ∧
      (vnut_choose l idx).2.2 = true) ∧
    (l.cval = true → idx < l.ruly → idx = l.ruly - idx →
      vnut_choose l idx = (0, idx, true)) := by
  refine ⟨?_, ?_, ?_, ?_, ?_⟩
  · intro hc
    have hrl := vnut_ruly_lt l h hc
    simp only [vnut_choose]
    rw [if_pos hc]
    by_cases h1 : l.ruly ≤ idx
    · rw [if_pos h1, if_pos h1]
      by_cases h2 : idx - l.ruly ≤ l.size - idx - 1
      · rw [if_pos h2]
        show idx - l.ruly = _
        omega
      · rw [if_neg h2]
        show l.size - idx - 1 = _
        omega
    · rw [if_neg h1, if_neg h1]
      by_cases h2 : idx ≤ l.ruly - idx
      · rw [if_pos h2]
        show idx = _
        omega
      · rw [if_neg h2]
        show l.ruly - idx = _
        omega
  · intro hc
    simp only [vnut_choose, hc]
    by_cases h1 : l.size / 2 < idx
    · rw [if_pos h1]
      simp [h1]
    · rw [if_neg h1]
      simp [h1]
  · intro hc hside
    simp only [vnut_choose, hc]
    simp only [Bool.false_eq_true, if_false]
    by_cases h1 : l.size / 2 < idx
    · rw [if_pos h1]
      show l.size - idx - 1 = _
      omega
    · rw [if_neg h1]
      show idx = _
      omega
  · intro hc h1 h2
    simp only [vnut_choose]
    rw [if_pos hc, if_pos h1, if_pos (by omega)]
    exact ⟨rfl, rfl⟩
  · intro hc h1 h2
    simp only [vnut_choose]
    rw [if_pos hc, if_neg (by omega), if_pos (by omega)]

/-- C5 witness: on a list with a valid cache at index 2, resolving index 4
needs `min (min 4 2) 2 = 2` steps, and the tie with the tail is resolved
in favor of the cache. -/
theorem clist_anchor_choice_amended_witness :
    ((vnut_choose cl7 4).2.1 = min (min 4 (cl7.size - 4 - 1))
      (if cl7.ruly ≤ 4 then 4 - cl7.ruly else cl7.ruly - 4)) ∧
    ((vnut_choose cl7 4).1 = vnut_pos cl7 ∧ (vnut_choose cl7 4).2.2 = true) :=
  ⟨((clist_anchor_choice_amended cl7 (by decide) 4 (by decide)).1 rfl),
   ((clist_anchor_choice_amended cl7 (by decide) 4 (by decide)).2.2.2.1
     rfl (by decide) (by decide))⟩

/-- C6.  Splice conservation: for well-formed lists with equal element
size and ownership mode and a legitimate in-bounds range, the total
element count is conserved (source loses `count`, destination gains
`count`), the moved run occupies positions `pos .. pos+count-1` of the
destination in its original relative order, it is gone from the source,
and all other elements of both lists keep their order. -/
theorem clist_splice_conservation {A : Type} (s d : CList A)
    (hs : ClistWF s) (hd : ClistWF d) (idx count pos : Nat)
    (hbound : idx + count ≤ s.size) (hc : 0 < count) (hpos : pos ≤ d.size)
    (hts : s.type_size = d.type_size) (hdy : s.dyn = d.dyn)
    (hw : idx + count < w64) :
    ∃ r, clist_splice s idx count d pos = some r ∧
      r.1.size + count = s.size ∧ r.2.size = d.size + count ∧
      r.1.size + r.2.size = s.size + d.size ∧
      r.1.chain = s.chain.take idx ++ s.chain.drop (idx + count) ∧
      r.2.chain = d.chain.take pos ++ (s.chain.drop idx).take count ++
        d.chain.drop pos := by
  have hlen : s.size = s.chain.length := rfl
  have hlend : d.size = d.chain.length := rfl
  obtain ⟨r, hE, h1, h2, _, _, _, _, _, _⟩ :=
    clist_splice_spec s d hs idx count pos hbound hc hpos hts hdy hw
  have hs1 : r.1.size + count = s.size := by
    show r.1.chain.length + count = s.size
    rw [h1, List.length_append, List.length_take, List.length_drop]
    omega
  have hs2 : r.2.size = d.size + count := by
    show r.2.chain.length = d.size + count
    rw [h2, List.length_append, List.length_append, List.length_take,
      List.length_take, List.length_drop, List.length_drop]
    omega
  exact ⟨r, hE, hs1, hs2, by omega, h1, h2⟩

/-- C6 witness: the specification's example, splice([0..9], 3, 4, [], 0):
the source becomes [0,1,2,7,8,9] and the destination [3,4,5,6]. -/
theorem clist_splice_conservation_witness :
    (clist_splice clA 3 4 clB 0).map
      (fun r => (r.1.chain.map CNode.val, r.2.chain.map CNode.val)) =
      some ([0, 1, 2, 7, 8, 9], [3, 4, 5, 6]) := by
  obtain ⟨r, hE, _, _, _, h4, h5⟩ :=
    clist_splice_conservation clA clB (by decide) (by decide) 3 4 0
      (by decide) (by decide) (by decide) (by decide) (by decide) (by decide)
  rw [hE]
  simp only [Option.map_some']
  rw [h4, h5]
  decide

/-- C7.  Filter: on a well-formed list the predicate is evaluated exactly
once for each element that was live at the start of the call, in
tail-to-head order (the trace is the reversed value sequence), and
afterwards the list contains exactly the elements on which the predicate
returned non-zero, in their original relative order. -/
theorem clist_filter_correct {A : Type} (l : CList A) (h : ClistWF l)
    (f : A → Int) (hw : l.size < w64) :
    ∃ r, clist_filter l f = some r ∧
      r.2 = (l.chain.map CNode.val).reverse ∧
      r.1.chain = l.chain.filter (fun nd => !(f nd.val == 0)) ∧
      r.1.size = (l.chain.filter (fun nd => !(f nd.val == 0))).length := by
  obtain ⟨r, hE, hch, htr, _⟩ := clist_filter_spec l h f hw
  refine ⟨r, hE, htr, hch, ?_⟩
  show r.1.chain.length = _
  rw [hch]

/-- C7 witness: the specification's example, filtering [0..9] by evenness
yields [0,2,4,6,8] (size 5), with the predicate applied once per element
tail-to-head. -/
theorem clist_filter_correct_witness :
    (clist_filter clA evenPred).map
      (fun r => (r.1.chain.map CNode.val, r.2)) =
      some ([0, 2, 4, 6, 8], [9, 8, 7, 6, 5, 4, 3, 2, 1, 0]) := by
  obtain ⟨r, hE, htr, hch, _⟩ :=
    clist_filter_correct clA (by decide) evenPred (by decide)
  rw [hE]
  simp only [Option.map_some']
  rw [hch, htr]
  decide

/-- C8.  Pool reuse: every legitimate erase pushes each removed node onto
the free pool (the pool grows by exactly `count`, last removed on top) and
allocates nothing; every insert takes its node from the pool whenever the
pool is non-empty (pool shrinks by one, no allocation) and performs
exactly one fresh allocation only when the pool is empty; hence any
insertion burst no longer than the pool performs no allocation at all. -/
theorem clist_pool_reuse {A : Type} [Inhabited A] (l : CList A)
    (h : ClistWF l) :
    (∀ idx count, idx + count ≤ l.size → 0 < count → idx + count < w64 →
      ∃ l2, clist_erase l idx count = some l2 ∧
        l2.pool = ((l.chain.drop idx).take count).reverse ++ l.pool ∧
        l2.pool.length = count + l.pool.length ∧
        l2.allocs = l.allocs) ∧
    (∀ idx v (p : CNode A) rest, idx ≤ l.size → l.pool = p :: rest →
      (clist_insert l idx v).2.pool = rest ∧
      (clist_insert l idx v).2.allocs = l.allocs) ∧
    (∀ idx v, idx ≤ l.size → l.pool = [] →
      (clist_insert l idx v).2.pool = [] ∧
      (clist_insert l idx v).2.allocs = l.allocs + 1) ∧
    (∀ ps : List (Nat × Option A), ps.length ≤ l.pool.length →
      (insertFold l ps).allocs = l.allocs) := by
  have hlen : l.size = l.chain.length := rfl
  refine ⟨?_, ?_, ?_, ?_⟩
  · intro idx count hbound hc hw
    obtain ⟨l2, hE, _, hpool, hall, _, _, _⟩ :=
      clist_erase_spec l h idx count hbound hc hw
    refine ⟨l2, hE, hpool, ?_, hall⟩
    rw [hpool, List.length_append, List.length_reverse, List.length_take,
      List.length_drop]
    omega
  · intro idx v p rest hle hp
    exact clist_insert_pool_pop l idx v hle p rest hp
  · intro idx v hle hp
    exact clist_insert_pool_fresh l idx v hle hp
  · intro ps hlen2
    exact insertFold_allocs ps l hlen2

/-- C8 witness: on a five-element list with an empty pool, erasing two
elements puts two nodes on the pool without allocating; a subsequent
insertion burst of length two performs no fresh allocation. -/
theorem clist_pool_reuse_witness :
    (clist_erase cl5 1 2).map (fun l2 => (l2.pool, l2.pool.length,
      l2.allocs)) = some (((cl5.chain.drop 1).take 2).reverse ++ cl5.pool,
      2 + cl5.pool.length, cl5.allocs) := by
  obtain ⟨l2, hE, h1, h2, h3⟩ :=
    (clist_pool_reuse cl5 (by decide)).1 1 2 (by decide) (by decide)
      (by decide)
  rw [hE]
  simp only [Option.map_some']
  rw [h2, h3, h1]

/-- C9.  Construction fails - producing no list object - exactly when the
configuration is malformed: zero element size, an ownership mode other
than the two defined values, or the free-on-remove mode with an element
size different from the size of a pointer.  Both `clist_init` and
`clist_new` perform exactly this validation; a malformed configuration is
never coerced into an initialized list. -/
theorem clist_init_validation {A : Type} (ts dynamic : Nat) :
    (clist_init A ts dynamic = none ↔
      (ts = 0 ∨ (dynamic ≠ 0 ∧ dynamic ≠ 1) ∨
        (dynamic = 1 ∧ ts ≠ ptrSize))) ∧
    (clist_new A ts dynamic = none ↔
      (ts = 0 ∨ (dynamic ≠ 0 ∧ dynamic ≠ 1) ∨
        (dynamic = 1 ∧ ts ≠ ptrSize))) := by
  have h : clist_init A ts dynamic = none ↔
      (ts = 0 ∨ (dynamic ≠ 0 ∧ dynamic ≠ 1) ∨
        (dynamic = 1 ∧ ts ≠ ptrSize)) := by
    rw [clist_init]
    split_ifs with hcond
    · constructor
      · intro hx
        simp at hx
      · intro hx
        exfalso
        rcases hcond with ⟨h1, h2, h3⟩
        rcases hx with hx | hx | hx
        · omega
        · rcases h2 with h2 | h2
          · exact hx.1 h2
          · exact hx.2 h2
        · rcases h3 with h3 | h3
          · have := hx.1
            omega
          · exact hx.2 h3
    · constructor
      · intro _
        by_cases c0 : ts = 0
        · exact Or.inl c0
        · by_cases c1 : dynamic = 0
          · exact absurd ⟨by omega, Or.inl c1, Or.inl c1⟩ hcond
          · by_cases c2 : dynamic = 1
            · refine Or.inr (Or.inr ⟨c2, fun hts => ?_⟩)
              exact hcond ⟨by omega, Or.inr c2, Or.inr hts⟩
            · exact Or.inr (Or.inl ⟨c1, c2⟩)
      · intro _
        rfl
  exact ⟨h, h⟩

/-- C10.  Every public operation tolerates a NULL list handle: with a NULL
list, `size` is 0, `empty` is 1, `head`/`tail`/`go`/`get` return NULL,
`insert`/`push_front`/`push_back` report failure, and every mutator does
nothing - in no case is the NULL pointer dereferenced.  `splice` tolerates
either handle being NULL, and `delete` tolerates both a NULL `pList` and a
NULL `*pList`. -/
theorem clist_null_tolerance {A : Type} [Inhabited A] :
    cw_size (A := A) none = 0 ∧
    cw_empty (A := A) none = 1 ∧
    cw_head (A := A) none = none ∧
    cw_tail (A := A) none = none ∧
    (∀ idx, cw_go (A := A) none idx = (none, none)) ∧
    (∀ idx, cw_get (A := A) none idx = (none, none)) ∧
    (∀ idx p, cw_insert (A := A) none idx p = (false, none)) ∧
    (∀ p, cw_push_front (A := A) none p = (false, none)) ∧
    (∀ p, cw_push_back (A := A) none p = (false, none)) ∧
    (∀ idx count, cw_erase (A := A) none idx count = some none) ∧
    (∀ idx p, cw_set (A := A) none idx p = none) ∧
    cw_pop_front (A := A) none = some none ∧
    cw_pop_back (A := A) none = some none ∧
    (∀ n p, cw_resize (A := A) none n p = some (false, none)) ∧
    cw_clear (A := A) none = some none ∧
    (∀ idx count pos (d : Option (CList A)),
      cw_splice none idx count d pos = some (none, d)) ∧
    (∀ idx count pos (s : Option (CList A)),
      cw_splice s idx count none pos = some (s, none)) ∧
    (∀ f : A → Int, cw_filter none f = some (none, [])) ∧
    cw_foreach (A := A) none = [] ∧
    cw_shrink_to_fit (A := A) none = none ∧
    cw_destroy (A := A) none = some none ∧
    cw_delete (A := A) none = some none ∧
    cw_delete (A := A) (some none) = some (some none) := by
  refine ⟨rfl, rfl, rfl, rfl, fun idx => rfl, fun idx => rfl,
    fun idx p => rfl, fun p => rfl, fun p => rfl, fun idx count => rfl,
    fun idx p => rfl, rfl, rfl, fun n p => rfl, rfl,
    fun idx count pos d => ?_, fun idx count pos s => ?_,
    fun f => rfl, rfl, rfl, rfl, rfl, rfl⟩
  · cases d <;> rfl
  · cases s <;> rfl
